import Mathlib

/-!
# Shallow embedding of the adacta bundle repository core

This file embeds, in Lean 4, the data model and operations of the adacta
repository (src/proto/src/model.rs and src/backend/src/repository/mod.rs):

* the `DocId` identifier (a 16-byte UUID) together with its base-58 textual
  codec (the `base58` crate used by `DocId::to_base58` / `DocId::from_str`);
* the fragment `Kind` enumeration, its string conversion and its
  filename mapping;
* a filesystem model over which the repository's bundle lifecycle
  (stage / commit / archive), the fragment read/write operations and
  the listing views (`Inbox::list`, `Inbox::get`, `Archive::get`) are
  given their semantics.  All filesystem calls in the source are the
  `tokio::fs` primitives (`create_dir_all`, `rename`, `remove_dir_all`,
  `read_dir`, `metadata`, `OpenOptions::open`); the model gives each of
  them an explicit small-step meaning on an explicit filesystem state,
  with the possibility of injected I/O errors (`failing` paths) so that
  error-path behaviour is observable.
-/

/-- The base-58 alphabet of the `base58` crate (bitcoin alphabet):
`"123456789ABCDEFGHJKLMNPQRSTUVWXYZabcdefghijkmnopqrstuvwxyz"`. -/
def ALPHABET : List Char :=
  ['1', '2', '3', '4', '5', '6', '7', '8', '9',
   'A', 'B', 'C', 'D', 'E', 'F', 'G', 'H', 'J', 'K', 'L', 'M', 'N',
   'P', 'Q', 'R', 'S', 'T', 'U', 'V', 'W', 'X', 'Y', 'Z',
   'a', 'b', 'c', 'd', 'e', 'f', 'g', 'h', 'i', 'j', 'k', 'm', 'n',
   'o', 'p', 'q', 'r', 's', 't', 'u', 'v', 'w', 'x', 'y', 'z']

/-- The digit value of one character under the crate's `DIGITS_MAP` table:
the table maps the byte of each alphabet character to its position in
`ALPHABET` and every other byte below 128 to the invalid marker 255; a byte
of 128 or above is rejected by the `d58 > DIGITS_MAP.len()` guard (for a
`char` outside ASCII the leading UTF-8 byte is above 128, so the character
is invalid).  `none` models both rejection paths. -/
def b58Digit (c : Char) : Option Nat :=
  if c ∈ ALPHABET then some (ALPHABET.indexOf c) else none

/-- The value of a big-endian digit list in radix `b`: the accumulator loop
`X := X * b + digit` that both crate conversions perform on their scratch
buffer. -/
def radixVal (b : Nat) (ds : List Nat) : Nat :=
  ds.foldl (fun a d => a * b + d) 0

/-- Fuel-bounded big-endian radix conversion: the digit string of `n` in
radix `b`, provided `n < b ^ fuel` (the crate's scratch buffer plays the
role of the fuel; its `assert_eq!(carry, 0)` is the statement that the
buffer was large enough). -/
def beDigitsF (b : Nat) : Nat → Nat → List Nat
  | 0, _ => []
  | fuel + 1, n => if n = 0 then [] else beDigitsF b fuel (n / b) ++ [n % b]

/-- The big-endian digit string of `n` in radix `b` (empty for `n = 0`):
what remains of the crate's scratch buffer after `skip_while(|x| x == 0)`.
`n + 1` units of fuel always suffice since `n < b ^ (n + 1)` for `2 ≤ b`. -/
def beDigits (b n : Nat) : List Nat :=
  beDigitsF b (n + 1) n

/-- `to_base58` of the `base58` crate on a byte list: one `'1'` (digit zero,
`ALPHABET[0]`) per leading zero byte, followed by the base-58 digits of the
big-endian value of the bytes, leading zeros skipped. -/
def toBase58 (bs : List Nat) : List Char :=
  List.replicate (bs.takeWhile (fun b => b == 0)).length '1'
    ++ (beDigits 58 (radixVal 256 bs)).map (fun d => ALPHABET.getD d ' ')

/-- Errors of `DocId::from_str`: `invalidBase58` models the crate's
`FromBase58Error` mapped to `anyhow!("Invalid document ID")`; `badLength`
models the error of `Uuid::from_slice` on a slice whose length is not 16.
The specification groups both as `InvalidIdentifier`. -/
inductive ParseErr where
  | invalidBase58 : ParseErr
  | badLength : ParseErr
deriving DecidableEq, Repr

/-- The character loop of the crate's `from_base58`: looks up every
character's digit value in turn, aborting with `none` at an invalid one. -/
def decodeDigits : List Char → Option (List Nat)
  | [] => some []
  | c :: s =>
      match b58Digit c, decodeDigits s with
      | some d, some ds => some (d :: ds)
      | _, _ => none

/-- `from_base58` of the `base58` crate: every character must carry a digit
value under `DIGITS_MAP` (otherwise `InvalidBase58Character`); the output is
one zero byte per leading `'1'`, followed by the base-256 digits of the
base-58 value of the whole string, leading zeros skipped. -/
def fromBase58 (s : List Char) : Except ParseErr (List Nat) :=
  match decodeDigits s with
  | none => Except.error ParseErr.invalidBase58
  | some ds =>
      Except.ok (List.replicate (s.takeWhile (fun c => c == '1')).length 0
        ++ beDigits 256 (radixVal 58 ds))

/-- The bytes of a `Uuid`: exactly 16 bytes, each below 256. -/
def UuidBytes (bs : List Nat) : Prop :=
  bs.length = 16 ∧ ∀ b ∈ bs, b < 256

instance : DecidablePred UuidBytes := fun bs => by
  unfold UuidBytes; infer_instance

/-- `DocId(Uuid)`: a 128-bit identifier, carried as its 16 raw bytes. -/
def DocId : Type := { bs : List Nat // UuidBytes bs }

instance : DecidableEq DocId := fun a b =>
  decidable_of_iff (a.val = b.val) Subtype.ext_iff.symm

/-- `DocId::to_base58` (also its `Display` form): base-58 encoding of the
raw UUID bytes. -/
def DocId.to_base58 (x : DocId) : List Char :=
  toBase58 x.val

/-- `DocId::from_str`: base-58 decode, then `Uuid::from_slice`, which
accepts exactly slices of length 16 (the bytes produced by the decoder are
below 256 by construction). -/
def DocId.from_str (s : List Char) : Except ParseErr DocId :=
  match fromBase58 s with
  | Except.error _ => Except.error ParseErr.invalidBase58
  | Except.ok bs =>
      if h : UuidBytes bs then Except.ok ⟨bs, h⟩
      else Except.error ParseErr.badLength

/-- Fragment kinds (`proto::model::Kind`): four canonical kinds plus an
open variant carrying an arbitrary name. -/
inductive Kind where
  | document : Kind
  | preview : Kind
  | plaintext : Kind
  | metadata : Kind
  | other : String → Kind
deriving DecidableEq, Repr

/-- `impl<S: Into<String>> From<S> for Kind`: the four canonical names map
to the canonical variants, everything else to `Kind::Other`. -/
def Kind.fromString (s : String) : Kind :=
  if s = "document" then Kind.document
  else if s = "preview" then Kind.preview
  else if s = "plaintext" then Kind.plaintext
  else if s = "metadata" then Kind.metadata
  else Kind.other s

/-- `impl Filename for Kind` (repository/mod.rs): the canonical filename of
each fragment kind. -/
def Kind.filename : Kind → String
  | Kind.document => "document.pdf"
  | Kind.preview => "preview.png"
  | Kind.plaintext => "document.txt"
  | Kind.metadata => "metadata.json"
  | Kind.other name => name

instance {ε α : Type} [DecidableEq ε] [DecidableEq α] : DecidableEq (Except ε α) :=
  fun a b =>
    match a, b with
    | Except.ok x, Except.ok y => decidable_of_iff (x = y) (by simp)
    | Except.error e, Except.error f => decidable_of_iff (e = f) (by simp)
    | Except.ok _, Except.error _ => isFalse (by simp)
    | Except.error _, Except.ok _ => isFalse (by simp)

/-! ## Filesystem model

The repository performs all storage through `tokio::fs`.  The model makes
the filesystem an explicit value: a list of directories (with modification
times), a list of files (with byte contents) and a set of paths whose
`stat`/`open` fail with a non-`NotFound` I/O error (permissions, device),
so that the error paths of the source are observable.  Directory
enumeration order is the order of the `dirs` list. -/

/-- A path: the list of components below the filesystem root. -/
abbrev FPath := List String

/-- Outcome classes of the underlying I/O, as the source distinguishes
them: `std::io::ErrorKind::NotFound`, an existing rename destination, and
every other error (permission, device, ...). -/
inductive IoErr where
  | notFound : IoErr
  | alreadyExists : IoErr
  | access : IoErr
deriving DecidableEq, Repr

/-- The filesystem state. -/
structure FS where
  dirs : List (FPath × Nat)
  files : List (FPath × List Nat)
  failing : List FPath

def FS.isDir (fs : FS) (p : FPath) : Bool :=
  fs.dirs.any (fun e => e.fst == p)

def FS.isFile (fs : FS) (p : FPath) : Bool :=
  fs.files.any (fun e => e.fst == p)

def FS.present (fs : FS) (p : FPath) : Bool :=
  fs.isDir p || fs.isFile p

/-- `tokio::fs::metadata`: stat of a path, returning its modification time
(files get a dummy time, the listing only stats directories).  A path in
`failing` fails with a non-`NotFound` error even if it exists. -/
def FS.stat (fs : FS) (p : FPath) : Except IoErr Nat :=
  if fs.failing.contains p then Except.error IoErr.access
  else match fs.dirs.find? (fun e => e.fst == p) with
    | some e => Except.ok e.snd
    | none => if fs.isFile p then Except.ok 0 else Except.error IoErr.notFound

/-- All prefixes of a path, shortest first: the chain of directories that
`create_dir_all` ensures. -/
def fpathInits : FPath → List FPath
  | [] => [[]]
  | a :: rest => [] :: (fpathInits rest).map (fun q => a :: q)

/-- `tokio::fs::create_dir_all`: creates the directory and every missing
ancestor, leaving existing directories untouched (idempotent); newly
created directories get modification time `now`. -/
def FS.createDirAll (fs : FS) (p : FPath) (now : Nat) : FS :=
  { fs with dirs := fs.dirs
      ++ ((fpathInits p).filter (fun q => !(fs.isDir q))).map (fun q => (q, now)) }

/-- `under p q`: `p` equals `q` or is an ancestor of `q`. -/
def under : FPath → FPath → Bool
  | [], _ => true
  | _ :: _, [] => false
  | a :: s, b :: t => a == b && under s t

/-- Replace the prefix `src` of `q` by `dst`. -/
def rebase (src dst q : FPath) : FPath :=
  dst ++ q.drop src.length

/-- Relocation of one directory or file entry by a rename: entries inside
the moved subtree are rebased, all others stay. -/
def moveEntry {β : Type} (src dst : FPath) (e : FPath × β) : FPath × β :=
  if under src e.fst then (rebase src dst e.fst, e.snd) else e

/-- `tokio::fs::rename` on a directory, the POSIX atomic `rename(2)` the
specification names as the only transition primitive: `notFound` if the
source does not exist, `alreadyExists` if the destination path is already
taken, otherwise the whole subtree rooted at the source moves to the
destination in one step. -/
def FS.rename (fs : FS) (src dst : FPath) : Except IoErr FS :=
  if !(fs.isDir src) then Except.error IoErr.notFound
  else if fs.present dst then Except.error IoErr.alreadyExists
  else Except.ok { fs with
    dirs := fs.dirs.map (moveEntry src dst),
    files := fs.files.map (moveEntry src dst) }

/-- `tokio::fs::remove_dir_all`: removes the subtree rooted at `p`. -/
def FS.removeDirAll (fs : FS) (p : FPath) : Except IoErr FS :=
  if !(fs.isDir p) then Except.error IoErr.notFound
  else Except.ok { fs with
    dirs := fs.dirs.filter (fun e => !(under p e.fst)),
    files := fs.files.filter (fun e => !(under p e.fst)) }

/-- `OpenOptions::new().read(true).open(path)` followed by reading the
stream: the byte content of the file, `notFound` if absent, the injected
failure otherwise. -/
def FS.openRead (fs : FS) (p : FPath) : Except IoErr (List Nat) :=
  if fs.failing.contains p then Except.error IoErr.access
  else match fs.files.find? (fun e => e.fst == p) with
    | some e => Except.ok e.snd
    | none => Except.error IoErr.notFound

/-- `OpenOptions::new().write(true).create(true).truncate(true).open(path)`
followed by writing the whole stream: any prior content at the path is
discarded; fails with `notFound` if the parent directory is absent. -/
def FS.writeFile (fs : FS) (p : FPath) (content : List Nat) : Except IoErr FS :=
  if fs.failing.contains p then Except.error IoErr.access
  else if !(fs.isDir p.dropLast) then Except.error IoErr.notFound
  else Except.ok { fs with
    files := (fs.files.filter (fun e => !(e.fst == p))) ++ [(p, content)] }

/-- The name under which `q` appears in the directory listing of `p`
(only immediate children). -/
def childName (p q : FPath) : Option String :=
  if under p q && q.length == p.length + 1 then q.getLast? else none

/-- `tokio::fs::read_dir`: the names of the immediate children of `p`
(directories and files), in enumeration order. -/
def FS.readDir (fs : FS) (p : FPath) : Except IoErr (List String) :=
  if fs.failing.contains p then Except.error IoErr.access
  else if !(fs.isDir p) then Except.error IoErr.notFound
  else Except.ok (fs.dirs.filterMap (fun e => childName p e.fst)
    ++ fs.files.filterMap (fun e => childName p e.fst))

/-- Well-formedness of a filesystem state: every directory path and every
file path is listed at most once, and no path is both a directory and a
file. -/
def FS.WF (fs : FS) : Prop :=
  (fs.dirs.map Prod.fst).Nodup ∧ (fs.files.map Prod.fst).Nodup
  ∧ ∀ q ∈ fs.dirs.map Prod.fst, q ∉ fs.files.map Prod.fst

instance (fs : FS) : Decidable fs.WF := by
  unfold FS.WF; infer_instance

/-! ## Repository, bundles and views -/

/-- The three typestates of a bundle handle (`Staging`, `Inboxed`,
`Archived`). -/
inductive BState where
  | staging : BState
  | inboxed : BState
  | archived : BState
deriving DecidableEq, Repr

/-- The partition directory of each state (`<State as BundleState>::path`):
`staging`, `inbox`, `archive` under the repository root. -/
def BState.partitionDir : BState → String
  | BState.staging => "staging"
  | BState.inboxed => "inbox"
  | BState.archived => "archive"

def statePath (root : FPath) (st : BState) : FPath :=
  root ++ [st.partitionDir]

/-- `impl Filename for DocId`: the directory name of a bundle is the
base-58 form of its identifier. -/
def DocId.filename (id : DocId) : String :=
  String.mk (DocId.to_base58 id)

/-- `Bundle::path`: partition directory of the state, then the identifier's
filename. -/
def bundlePath (root : FPath) (st : BState) (id : DocId) : FPath :=
  statePath root st ++ [id.filename]

/-- `Bundle::path_of(kind)`. -/
def fragmentPath (root : FPath) (st : BState) (id : DocId) (kind : Kind) : FPath :=
  bundlePath root st id ++ [kind.filename]

/-- `Repository::stage`, with the freshly generated identifier passed
explicitly (`DocId::random` is the only effectful source of it): eagerly
creates the bundle's staging directory. -/
def Repository.stage (fs : FS) (root : FPath) (id : DocId) (now : Nat) : FS :=
  fs.createDirAll (bundlePath root BState.staging id) now

/-- `Bundle::<Staging>::create` (the commit transition):
`create_dir_all` on the destination's parent (the inbox partition
directory), then a single atomic rename staging→inbox. -/
def Bundle.commit (fs : FS) (root : FPath) (id : DocId) (now : Nat) :
    Except IoErr FS :=
  (fs.createDirAll (statePath root BState.inboxed) now).rename
    (bundlePath root BState.staging id) (bundlePath root BState.inboxed id)

/-- `Bundle::<Inboxed>::archive`: `create_dir_all` on the archive partition
directory, then a single atomic rename inbox→archive. -/
def Bundle.archive (fs : FS) (root : FPath) (id : DocId) (now : Nat) :
    Except IoErr FS :=
  (fs.createDirAll (statePath root BState.archived) now).rename
    (bundlePath root BState.inboxed id) (bundlePath root BState.archived id)

/-- `Bundle::read(kind)` (any state): open the fragment for reading;
`NotFound` from the open is mapped to a successful empty result, every
other error propagates. -/
def Bundle.read (fs : FS) (root : FPath) (st : BState) (id : DocId)
    (kind : Kind) : Except IoErr (Option (List Nat)) :=
  match fs.openRead (fragmentPath root st id kind) with
  | Except.ok c => Except.ok (some c)
  | Except.error IoErr.notFound => Except.ok none
  | Except.error e => Except.error e

/-- Errors surfaced by the typed fragment accessors: a propagated I/O
error, the `anyhow!("... missing in bundle ...")` error of an absent
fragment (per fragment kind), or a failure of the content decoding
(`read_to_string` / `Metadata::load`). -/
inductive RepoErr where
  | io : IoErr → RepoErr
  | missingFragment : Kind → RepoErr
  | decodeFailed : RepoErr
deriving DecidableEq, Repr

/-- Metadata record.  Modelled from the spec: `crate::meta::Metadata` is
not part of the sources under review; §3 of the specification gives its
shape (uploaded/archived timestamps, optional title, page count, label
set, property map).  Only its identity matters to the claims below. -/
structure Metadata where
  uploaded : Nat
  archived : Option Nat
  title : Option String
  pages : Nat
  labels : List String
  properties : List (String × String)

/-- `Bundle::read_plaintext`: typed accessor over `read(Kind::Plaintext)`;
an absent fragment becomes the `missingFragment` error.  `utf8` stands for
`read_to_string`, whose UTF-8 decoding lives outside this repository; its
failure surfaces as `decodeFailed`. -/
def Bundle.read_plaintext (utf8 : List Nat → Option String) (fs : FS)
    (root : FPath) (st : BState) (id : DocId) : Except RepoErr String :=
  match Bundle.read fs root st id Kind.plaintext with
  | Except.error e => Except.error (RepoErr.io e)
  | Except.ok none => Except.error (RepoErr.missingFragment Kind.plaintext)
  | Except.ok (some c) =>
      match utf8 c with
      | some s => Except.ok s
      | none => Except.error RepoErr.decodeFailed

/-- `Bundle::read_metadata`: typed accessor over `read(Kind::Metadata)`;
an absent fragment becomes the `missingFragment` error.  `load` stands for
`crate::meta::Metadata::load` (not part of the sources under review,
modelled from the spec as an arbitrary fallible decoder); its failure
surfaces as `decodeFailed`. -/
def Bundle.read_metadata (load : List Nat → Option Metadata) (fs : FS)
    (root : FPath) (st : BState) (id : DocId) : Except RepoErr Metadata :=
  match Bundle.read fs root st id Kind.metadata with
  | Except.error e => Except.error (RepoErr.io e)
  | Except.ok none => Except.error (RepoErr.missingFragment Kind.metadata)
  | Except.ok (some c) =>
      match load c with
      | some m => Except.ok m
      | none => Except.error RepoErr.decodeFailed

/-- `Bundle::<Staging>::write(kind)`, the scoped writable stream collapsed
to the bytes it ends up writing: create-or-truncate the fragment file. -/
def Bundle.write (fs : FS) (root : FPath) (id : DocId) (kind : Kind)
    (content : List Nat) : Except IoErr FS :=
  fs.writeFile (fragmentPath root BState.staging id kind) content

/-- `Inbox::get`: stat-probe of the bundle directory; any stat failure
whatsoever yields `None`, a success yields the inboxed handle. -/
def Inbox.get (fs : FS) (root : FPath) (id : DocId) : Option DocId :=
  match fs.stat (bundlePath root BState.inboxed id) with
  | Except.error _ => none
  | Except.ok _ => some id

/-- `Archive::get`: stat-probe of the bundle directory; any stat failure
whatsoever yields `None`, a success yields the archived handle. -/
def Archive.get (fs : FS) (root : FPath) (id : DocId) : Option DocId :=
  match fs.stat (bundlePath root BState.archived id) with
  | Except.error _ => none
  | Except.ok _ => some id

/-- Errors of `Inbox::list`: a propagated I/O error or an entry name that
does not parse as an identifier. -/
inductive ListErr where
  | io : IoErr → ListErr
  | invalidId : ParseErr → ListErr
deriving DecidableEq, Repr

/-- One step of the `Inbox::list` stream: read the entry's metadata for the
modification time, then parse the entry name as a `DocId`. -/
def procEntry (fs : FS) (dir : FPath) (name : String) :
    Except ListErr (Nat × DocId) :=
  match fs.stat (dir ++ [name]) with
  | Except.error e => Except.error (ListErr.io e)
  | Except.ok t =>
      match DocId.from_str name.data with
      | Except.error e => Except.error (ListErr.invalidId e)
      | Except.ok id => Except.ok (t, id)

/-- The `try_collect` over the entry stream: the first failing entry (in
enumeration order) aborts the whole listing. -/
def collectEntries (fs : FS) (dir : FPath) :
    List String → Except ListErr (List (Nat × DocId))
  | [] => Except.ok []
  | n :: rest =>
      match procEntry fs dir n, collectEntries fs dir rest with
      | Except.ok kv, Except.ok kvs => Except.ok (kv :: kvs)
      | Except.error e, _ => Except.error e
      | _, Except.error e => Except.error e

/-- Strict lexicographic comparison of byte lists: the derived `Ord` of
`Uuid` over its 16 raw bytes. -/
def lexLt : List Nat → List Nat → Bool
  | [], [] => false
  | [], _ :: _ => true
  | _ :: _, [] => false
  | a :: s, b :: t => if a < b then true else if a = b then lexLt s t else false

/-- The strict order of the BTreeMap key `(SystemTime, DocId)`:
modification time first, then identifier bytes. -/
def keyLt (a b : Nat × DocId) : Bool :=
  if a.1 < b.1 then true
  else if a.1 = b.1 then lexLt a.2.val b.2.val
  else false

/-- Insertion into the key-ordered content of the
`BTreeMap<(SystemTime, DocId), Bundle>` built by `try_collect`.  The value
of an entry is the bundle handle, which is exactly the identifier already
in the key, so the map content collapses to the ordered list of keys; an
equal key replaces the previous entry (BTreeMap insert semantics). -/
def btreeInsert (kv : Nat × DocId) : List (Nat × DocId) → List (Nat × DocId)
  | [] => [kv]
  | h :: t =>
      if keyLt kv h then kv :: h :: t
      else if kv = h then kv :: t
      else h :: btreeInsert kv t

/-- `Inbox::list`: enumerate the inbox partition, stat and parse every
entry (the first failure aborts), collect into the key-ordered map, and
return the bundles in ascending `(modification time, identifier)` order. -/
def Inbox.list (fs : FS) (root : FPath) : Except ListErr (List DocId) :=
  match fs.readDir (statePath root BState.inboxed) with
  | Except.error e => Except.error (ListErr.io e)
  | Except.ok names =>
      match collectEntries fs (statePath root BState.inboxed) names with
      | Except.error e => Except.error e
      | Except.ok kvs =>
          Except.ok ((kvs.foldl (fun m kv => btreeInsert kv m) []).map Prod.snd)

/-- The partitions under which the bundle's directory currently exists. -/
def residence (fs : FS) (root : FPath) (id : DocId) : List BState :=
  [BState.staging, BState.inboxed, BState.archived].filter
    (fun st => fs.isDir (bundlePath root st id))

/-! ## Concrete fixtures (small closed values used to evaluate the model) -/

/-- A concrete identifier: 15 zero bytes and one 1-byte; its base-58 form
is `"1111111111111112"`. -/
def docIdOne : DocId :=
  ⟨[0, 0, 0, 0, 0, 0, 0, 0, 0, 0, 0, 0, 0, 0, 0, 1], by decide⟩

def wRoot : FPath := ["repo"]

/-- An empty filesystem. -/
def fsEmpty : FS := ⟨[], [], []⟩

/-- A repository with one staged bundle `docIdOne`. -/
def wFsStage : FS :=
  ⟨[(["repo"], 0), (["repo", "staging"], 0),
    (["repo", "staging", docIdOne.filename], 0)], [], []⟩

/-- A repository with one inboxed bundle `docIdOne` (mtime 5). -/
def wFsInbox : FS :=
  ⟨[(["repo"], 0), (["repo", "inbox"], 0),
    (["repo", "inbox", docIdOne.filename], 5)], [], []⟩

/-- A repository whose inbox holds one entry with an unparseable name. -/
def wFsBad : FS :=
  ⟨[(["repo"], 0), (["repo", "inbox"], 0),
    (["repo", "inbox", "0bad"], 5)], [], []⟩

/-- A repository where the inboxed bundle's directory exists but its stat
fails with a (permission-like) I/O error. -/
def wFsFail : FS :=
  ⟨[(["repo"], 0), (["repo", "inbox"], 0),
    (["repo", "inbox", docIdOne.filename], 5)], [],
    [["repo", "inbox", docIdOne.filename]]⟩

/-- A trivial stand-in for `read_to_string`'s UTF-8 decoding. -/
def utf8W : List Nat → Option String := fun _ => none

/-- A trivial stand-in for `Metadata::load`. -/
def loadW : List Nat → Option Metadata := fun _ => none

/-! ## Codec lemmas -/

example : Kind.fromString "document.pdf" = Kind.other "document.pdf" := by decide

example : toBase58 [0, 0, 1] = ['1', '1', '2'] := by decide

example : fromBase58 ['1', '1', '2'] = Except.ok [0, 0, 1] := by decide

theorem beDigitsF_eq_digits {b : Nat} (hb : 2 ≤ b) :
    ∀ fuel n, n < b ^ fuel → beDigitsF b fuel n = (Nat.digits b n).reverse := by
  intro fuel
  induction fuel with
  | zero =>
      intro n h
      simp only [pow_zero, Nat.lt_one_iff] at h
      subst h
      simp [beDigitsF]
  | succ fuel ih =>
      intro n h
      by_cases hn : n = 0
      · subst hn; simp [beDigitsF]
      · have hdiv : n / b < b ^ fuel := by
          rw [Nat.div_lt_iff_lt_mul (by omega : 0 < b)]
          calc n < b ^ (fuel + 1) := h
            _ = b ^ fuel * b := by rw [pow_succ]
        rw [show beDigitsF b (fuel + 1) n
              = if n = 0 then [] else beDigitsF b fuel (n / b) ++ [n % b] from rfl,
          if_neg hn, ih (n / b) hdiv,
          Nat.digits_def' (by omega : 1 < b) (Nat.pos_of_ne_zero hn)]
        simp

theorem beDigits_eq_digits {b : Nat} (hb : 2 ≤ b) (n : Nat) :
    beDigits b n = (Nat.digits b n).reverse := by
  apply beDigitsF_eq_digits hb
  calc n < 2 ^ n := Nat.lt_two_pow n
    _ ≤ b ^ n := Nat.pow_le_pow_left hb n
    _ ≤ b ^ (n + 1) := Nat.pow_le_pow_right (by omega) (Nat.le_succ n)

theorem foldl_mulAdd_eq_ofDigits (b : Nat) (l : List Nat) :
    ∀ a : Nat, l.foldl (fun a d => a * b + d) a
      = a * b ^ l.length + Nat.ofDigits b l.reverse := by
  induction l with
  | nil => intro a; simp [Nat.ofDigits_nil]
  | cons d t ih =>
      intro a
      simp only [List.foldl_cons, List.length_cons, List.reverse_cons]
      rw [ih (a * b + d), Nat.ofDigits_append, Nat.ofDigits_singleton,
        List.length_reverse]
      ring

theorem radixVal_eq_ofDigits (b : Nat) (l : List Nat) :
    radixVal b l = Nat.ofDigits b l.reverse := by
  unfold radixVal
  rw [foldl_mulAdd_eq_ofDigits]
  simp

theorem beDigits_radixVal_self {b : Nat} (hb : 2 ≤ b) (l : List Nat)
    (hlt : ∀ d ∈ l, d < b) (hhead : ∀ h : l ≠ [], l.head h ≠ 0) :
    beDigits b (radixVal b l) = l := by
  rcases eq_or_ne l [] with rfl | hne
  · simp [radixVal, beDigits, beDigitsF]
  · rw [radixVal_eq_ofDigits, beDigits_eq_digits hb,
      Nat.digits_ofDigits b (by omega) l.reverse
        (fun x hx => hlt x (List.mem_reverse.mp hx)) ?w2,
      List.reverse_reverse]
    intro h
    have h1 : l.reverse.getLast? = l.head? := List.getLast?_reverse l
    rw [List.getLast?_eq_getLast _ h, List.head?_eq_head hne] at h1
    have := hhead hne
    intro hz
    apply this
    rw [← Option.some_inj, ← h1, hz]

theorem takeWhile_zero_replicate (bs : List Nat) :
    bs.takeWhile (fun x => x == 0)
      = List.replicate (bs.takeWhile (fun x => x == 0)).length 0 := by
  rw [List.eq_replicate_length]
  intro x hx
  have h0 := List.mem_takeWhile_imp hx
  simp only [beq_iff_eq] at h0
  exact h0

theorem replicate_takeWhile_append_dropWhile (bs : List Nat) :
    List.replicate (bs.takeWhile (fun x => x == 0)).length 0
      ++ bs.dropWhile (fun x => x == 0) = bs := by
  conv_rhs => rw [← List.takeWhile_append_dropWhile (fun x => x == 0) bs]
  congr 1
  exact (takeWhile_zero_replicate bs).symm

theorem radixVal_replicate_zero_append (b z : Nat) (l : List Nat) :
    radixVal b (List.replicate z (0 : Nat) ++ l) = radixVal b l := by
  unfold radixVal
  rw [List.foldl_append]
  have : (List.replicate z (0 : Nat)).foldl (fun a d => a * b + d) 0 = 0 := by
    induction z with
    | zero => rfl
    | succ z ih => simpa [List.replicate_succ] using ih
  rw [this]

theorem alph_digit_roundtrip :
    ∀ d : Fin 58, b58Digit (ALPHABET.getD d.val ' ') = some d.val := by decide

theorem alph_one_iff :
    ∀ d : Fin 58, (ALPHABET.getD d.val ' ' == '1') = (d.val == 0) := by decide

theorem alph_length : ALPHABET.length = 58 := by decide

theorem b58Digit_eq_some {c : Char} {d : Nat} (h : b58Digit c = some d) :
    d < 58 ∧ ALPHABET.getD d ' ' = c := by
  unfold b58Digit at h
  split at h
  case isTrue hc =>
    injection h with h'
    subst h'
    have hlt : ALPHABET.indexOf c < ALPHABET.length := List.indexOf_lt_length.mpr hc
    refine ⟨by simpa [alph_length] using hlt, ?_⟩
    rw [List.getD_eq_getElem?_getD, List.getElem?_eq_getElem hlt]
    simpa using List.getElem_indexOf hlt
  case isFalse => exact absurd h (by simp)

theorem b58Digit_none {c : Char} (h : c ∉ ALPHABET) : b58Digit c = none := by
  simp [b58Digit, h]

theorem b58Digit_one : b58Digit '1' = some 0 := by decide

theorem decodeDigits_map_alph (l : List Nat) (h : ∀ d ∈ l, d < 58) :
    decodeDigits (l.map (fun d => ALPHABET.getD d ' ')) = some l := by
  induction l with
  | nil => rfl
  | cons d t ih =>
      have hd : b58Digit (ALPHABET.getD d ' ') = some d :=
        alph_digit_roundtrip ⟨d, h d (List.mem_cons_self d t)⟩
      rw [List.map_cons,
        show decodeDigits (ALPHABET.getD d ' '
              :: List.map (fun d => ALPHABET.getD d ' ') t)
          = match b58Digit (ALPHABET.getD d ' '),
              decodeDigits (List.map (fun d => ALPHABET.getD d ' ') t) with
            | some d, some ds => some (d :: ds)
            | _, _ => none from rfl,
        hd, ih (fun x hx => h x (List.mem_cons_of_mem _ hx))]

theorem decodeDigits_replicate_one_append (z : Nat) (s : List Char) :
    decodeDigits (List.replicate z '1' ++ s)
      = (decodeDigits s).map (fun ds => List.replicate z 0 ++ ds) := by
  induction z with
  | zero => cases h : decodeDigits s <;> simp [h]
  | succ z ih =>
      rw [List.replicate_succ, List.cons_append,
        show decodeDigits ('1' :: (List.replicate z '1' ++ s))
          = match b58Digit '1', decodeDigits (List.replicate z '1' ++ s) with
            | some d, some ds => some (d :: ds)
            | _, _ => none from rfl,
        b58Digit_one, ih]
      cases decodeDigits s <;> simp [List.replicate_succ]

theorem decodeDigits_of_bad {s : List Char} {c : Char} (hc : c ∈ s)
    (h : b58Digit c = none) : decodeDigits s = none := by
  induction s with
  | nil => cases hc
  | cons a t ih =>
      rcases List.mem_cons.mp hc with rfl | hmem
      · simp [decodeDigits, h]
      · rw [show decodeDigits (a :: t)
            = match b58Digit a, decodeDigits t with
              | some d, some ds => some (d :: ds)
              | _, _ => none from rfl, ih hmem]
        cases b58Digit a <;> simp

theorem decodeDigits_some {s : List Char} {ds : List Nat}
    (h : decodeDigits s = some ds) :
    s = ds.map (fun d => ALPHABET.getD d ' ') ∧ ∀ d ∈ ds, d < 58 := by
  induction s generalizing ds with
  | nil =>
      simp only [decodeDigits] at h
      injection h with h
      subst h
      simp
  | cons a t ih =>
      rw [show decodeDigits (a :: t)
          = match b58Digit a, decodeDigits t with
            | some d, some ds => some (d :: ds)
            | _, _ => none from rfl] at h
      cases ha : b58Digit a with
      | none => rw [ha] at h; exact absurd h (by simp)
      | some d =>
          rw [ha] at h
          cases ht : decodeDigits t with
          | none => rw [ht] at h; exact absurd h (by simp)
          | some dst =>
              rw [ht] at h
              injection h with h
              subst h
              obtain ⟨h1, h2⟩ := ih ht
              obtain ⟨hlt, hchar⟩ := b58Digit_eq_some ha
              constructor
              · rw [List.map_cons, hchar, ← h1]
              · intro x hx
                rcases List.mem_cons.mp hx with rfl | hmem
                · exact hlt
                · exact h2 x hmem

theorem takeWhile_one_replicate_append (z : Nat) (s : List Char)
    (hs : ∀ c, s.head? = some c → c ≠ '1') :
    (List.replicate z '1' ++ s).takeWhile (fun c => c == '1')
      = List.replicate z '1' := by
  induction z with
  | zero =>
      simp only [List.replicate, List.nil_append]
      cases s with
      | nil => rfl
      | cons a t =>
          have : a ≠ '1' := hs a rfl
          simp [List.takeWhile_cons, this]
  | succ z ih =>
      rw [List.replicate_succ, List.cons_append, List.takeWhile_cons]
      simp [ih]

theorem alph_ne_one : ∀ d : Fin 58, d.val ≠ 0 → ALPHABET.getD d.val ' ' ≠ '1' := by
  decide

theorem fromBase58_toBase58 (bs : List Nat) (hb : ∀ x ∈ bs, x < 256) :
    fromBase58 (toBase58 bs) = Except.ok bs := by
  have htail_head : ∀ h : bs.dropWhile (fun x => x == 0) ≠ [],
      (bs.dropWhile (fun x => x == 0)).head h ≠ 0 := by
    intro h
    have h1 := List.head_dropWhile_not (fun x => x == 0) bs h
    simpa using h1
  have htail_lt : ∀ x ∈ bs.dropWhile (fun x => x == 0), x < 256 := by
    intro x hx
    exact hb x ((List.dropWhile_sublist _).subset hx)
  have hN : radixVal 256 bs = radixVal 256 (bs.dropWhile (fun x => x == 0)) := by
    conv_lhs => rw [← replicate_takeWhile_append_dropWhile bs]
    rw [radixVal_replicate_zero_append]
  have hdigits : beDigits 256 (radixVal 256 bs)
      = bs.dropWhile (fun x => x == 0) := by
    rw [hN]
    exact beDigits_radixVal_self (by omega) _ htail_lt htail_head
  have h58lt : ∀ d ∈ beDigits 58 (radixVal 256 bs), d < 58 := by
    rw [beDigits_eq_digits (by omega)]
    intro d hd
    exact Nat.digits_lt_base (by omega) (List.mem_reverse.mp hd)
  have h58head : ∀ d, (beDigits 58 (radixVal 256 bs)).head? = some d → d ≠ 0 := by
    intro d hd
    have hne : radixVal 256 bs ≠ 0 := by
      intro h0
      rw [beDigits_eq_digits (by omega), h0, Nat.digits_zero,
        List.reverse_nil] at hd
      exact Option.noConfusion hd
    rw [beDigits_eq_digits (by omega), List.head?_reverse,
      List.getLast?_eq_getLast _ (Nat.digits_ne_nil_iff_ne_zero.mpr hne)] at hd
    have hgl := Nat.getLast_digit_ne_zero 58 hne
    rw [Option.some_inj] at hd
    rw [hd] at hgl
    exact hgl
  have hchars : ∀ c, ((beDigits 58 (radixVal 256 bs)).map
      (fun d => ALPHABET.getD d ' ')).head? = some c → c ≠ '1' := by
    intro c hc
    rw [List.head?_map] at hc
    cases hh : (beDigits 58 (radixVal 256 bs)).head? with
    | none => rw [hh] at hc; exact Option.noConfusion hc
    | some d =>
        rw [hh] at hc
        have hd0 : d ≠ 0 := h58head d hh
        have hdlt : d < 58 := h58lt d (List.mem_of_mem_head? hh)
        have hne := alph_ne_one ⟨d, hdlt⟩ hd0
        simp only [Option.map_some'] at hc
        rw [Option.some_inj] at hc
        rw [← hc]
        exact hne
  have hval : radixVal 58 (beDigits 58 (radixVal 256 bs)) = radixVal 256 bs := by
    rw [radixVal_eq_ofDigits, beDigits_eq_digits (by omega : (2:Nat) ≤ 58),
      List.reverse_reverse, Nat.ofDigits_digits]
  unfold toBase58 fromBase58
  rw [decodeDigits_replicate_one_append,
    decodeDigits_map_alph _ h58lt]
  simp only [Option.map_some']
  rw [takeWhile_one_replicate_append _ _ hchars, List.length_replicate,
    radixVal_replicate_zero_append, hval, hdigits,
    replicate_takeWhile_append_dropWhile]

/-! ## Path lemmas -/

theorem under_refl (p : FPath) : under p p = true := by
  induction p with
  | nil => rfl
  | cons a s ih => simp [under, ih]

theorem under_append (p r : FPath) : under p (p ++ r) = true := by
  induction p with
  | nil => rfl
  | cons a s ih => simp [under, ih]

theorem under_length {p q : FPath} (h : under p q = true) : p.length ≤ q.length := by
  induction p generalizing q with
  | nil => simp
  | cons a s ih =>
      cases q with
      | nil => exact absurd h (by simp [under])
      | cons b t =>
          simp only [under, Bool.and_eq_true, beq_iff_eq] at h
          simpa using ih h.2

theorem under_eq_of_length {p q : FPath} (h : under p q = true)
    (hl : p.length = q.length) : p = q := by
  induction p generalizing q with
  | nil => cases q with
    | nil => rfl
    | cons b t => exact absurd hl (by simp)
  | cons a s ih =>
      cases q with
      | nil => exact absurd h (by simp [under])
      | cons b t =>
          simp only [under, Bool.and_eq_true, beq_iff_eq] at h
          have : s = t := ih h.2 (by simpa using hl)
          rw [h.1, this]

theorem rebase_append (src dst r : FPath) : rebase src dst (src ++ r) = dst ++ r := by
  unfold rebase
  rw [List.drop_left]

theorem rebase_self (src dst : FPath) : rebase src dst src = dst := by
  have := rebase_append src dst []
  simpa using this

theorem mem_fpathInits_self (p : FPath) : p ∈ fpathInits p := by
  induction p with
  | nil => simp [fpathInits]
  | cons a s ih => simp [fpathInits, ih]

theorem eq_or_length_lt_of_mem_fpathInits {q p : FPath} (h : q ∈ fpathInits p) :
    q = p ∨ q.length < p.length := by
  induction p generalizing q with
  | nil =>
      simp only [fpathInits, List.mem_singleton] at h
      exact Or.inl h
  | cons a s ih =>
      simp only [fpathInits, List.mem_cons, List.mem_map] at h
      rcases h with rfl | ⟨q', hq', rfl⟩
      · right; simp
      · rcases ih hq' with rfl | hlt
        · left; rfl
        · right; simpa using Nat.succ_lt_succ hlt

/-! ## Move and create lemmas -/

theorem any_moveEntry_eq {β : Type} (src dst : FPath) (l : List (FPath × β))
    (q : FPath) (hdq : under dst q = false) (hsq : under src q = false) :
    (l.map (moveEntry src dst)).any (fun e => e.fst == q)
      = l.any (fun e => e.fst == q) := by
  induction l with
  | nil => rfl
  | cons e t ih =>
      simp only [List.map_cons, List.any_cons, ih]
      congr 1
      unfold moveEntry
      by_cases hu : under src e.fst = true
      · rw [if_pos hu]
        have h1 : under dst (rebase src dst e.fst) = true := under_append dst _
        have h2 : (rebase src dst e.fst == q) = false := by
          rw [beq_eq_false_iff_ne]
          intro hqe
          rw [hqe] at h1
          rw [h1] at hdq
          exact Bool.noConfusion hdq
        rw [h2]
        rcases hb : (e.fst == q) with _ | _
        · rfl
        · rw [beq_iff_eq] at hb
          rw [hb] at hu
          rw [hu] at hsq
          exact Bool.noConfusion hsq
      · rw [if_neg hu]

theorem any_moveEntry_src {β : Type} (src dst : FPath) (l : List (FPath × β))
    (hds : under dst src = false) :
    (l.map (moveEntry src dst)).any (fun e => e.fst == src) = false := by
  induction l with
  | nil => rfl
  | cons e t ih =>
      simp only [List.map_cons, List.any_cons, ih, Bool.or_false]
      unfold moveEntry
      by_cases hu : under src e.fst = true
      · rw [if_pos hu]
        show (rebase src dst e.fst == src) = false
        rw [beq_eq_false_iff_ne]
        intro hqe
        have h1 : under dst (rebase src dst e.fst) = true := under_append dst _
        rw [hqe] at h1
        rw [h1] at hds
        exact Bool.noConfusion hds
      · rw [if_neg hu]
        rw [beq_eq_false_iff_ne]
        intro hqe
        rw [hqe] at hu
        exact hu (under_refl src)

theorem any_moveEntry_sub {β : Type} (src dst : FPath) (l : List (FPath × β))
    (r : FPath) (h : l.any (fun e => e.fst == (src ++ r)) = true) :
    (l.map (moveEntry src dst)).any (fun e => e.fst == (dst ++ r)) = true := by
  rw [List.any_eq_true] at h ⊢
  obtain ⟨e, he, hfst⟩ := h
  rw [beq_iff_eq] at hfst
  refine ⟨moveEntry src dst e, List.mem_map_of_mem _ he, ?_⟩
  unfold moveEntry
  rw [hfst, if_pos (under_append src r), rebase_append]
  simp

theorem any_moveEntry_dst {β : Type} (src dst : FPath) (l : List (FPath × β))
    (h : l.any (fun e => e.fst == src) = true) :
    (l.map (moveEntry src dst)).any (fun e => e.fst == dst) = true := by
  have h1 := any_moveEntry_sub src dst l []
    (by rw [List.append_nil]; exact h)
  rw [List.append_nil] at h1
  exact h1

theorem bool_eq_of_iff {a b : Bool} (h : a = true ↔ b = true) : a = b := by
  cases a <;> cases b <;> simp_all

theorem isDir_createDirAll (fs : FS) (p : FPath) (now : Nat) (q : FPath) :
    (fs.createDirAll p now).isDir q
      = (fs.isDir q || decide (q ∈ fpathInits p)) := by
  apply bool_eq_of_iff
  constructor
  · intro h
    unfold FS.createDirAll FS.isDir at h
    simp only [List.any_append, Bool.or_eq_true, List.any_eq_true,
      List.mem_map, List.mem_filter, beq_iff_eq] at h
    rcases h with ⟨e, he, hq⟩ | ⟨e, ⟨r, ⟨hr, _⟩, rfl⟩, hq⟩
    · have : fs.isDir q = true := by
        unfold FS.isDir
        rw [List.any_eq_true]
        exact ⟨e, he, by rw [beq_iff_eq]; exact hq⟩
      simp [this]
    · have : q ∈ fpathInits p := by
        have : r = q := hq
        exact this ▸ hr
      simp [this]
  · intro h
    rw [Bool.or_eq_true] at h
    unfold FS.createDirAll FS.isDir
    simp only [List.any_append, Bool.or_eq_true, List.any_eq_true,
      List.mem_map, List.mem_filter, beq_iff_eq]
    rcases h with hd | hq
    · unfold FS.isDir at hd
      rw [List.any_eq_true] at hd
      obtain ⟨e, he, hbe⟩ := hd
      rw [beq_iff_eq] at hbe
      exact Or.inl ⟨e, he, hbe⟩
    · rw [decide_eq_true_eq] at hq
      by_cases hd : fs.isDir q = true
      · unfold FS.isDir at hd
        rw [List.any_eq_true] at hd
        obtain ⟨e, he, hbe⟩ := hd
        rw [beq_iff_eq] at hbe
        exact Or.inl ⟨e, he, hbe⟩
      · refine Or.inr ⟨(q, now), ⟨q, ⟨hq, ?_⟩, rfl⟩, rfl⟩
        rw [Bool.not_eq_true']
        exact Bool.eq_false_iff.mpr hd

theorem isFile_createDirAll (fs : FS) (p : FPath) (now : Nat) (q : FPath) :
    (fs.createDirAll p now).isFile q = fs.isFile q := rfl

theorem failing_createDirAll (fs : FS) (p : FPath) (now : Nat) :
    (fs.createDirAll p now).failing = fs.failing := rfl

/-! ## Bundle path lemmas -/

theorem statePath_length (root : FPath) (st : BState) :
    (statePath root st).length = root.length + 1 := by
  simp [statePath]

theorem bundlePath_length (root : FPath) (st : BState) (id : DocId) :
    (bundlePath root st id).length = root.length + 2 := by
  simp [bundlePath, statePath]

theorem partitionDir_inj {st st' : BState} (h : st ≠ st') :
    st.partitionDir ≠ st'.partitionDir := by
  cases st <;> cases st' <;> first | (exact absurd rfl h) | decide

theorem bundlePath_ne {root : FPath} {st st' : BState} {id : DocId}
    (h : st ≠ st') : bundlePath root st id ≠ bundlePath root st' id := by
  unfold bundlePath statePath
  intro he
  rw [List.append_assoc, List.append_assoc] at he
  have h2 := List.append_cancel_left he
  simp only [List.cons_append, List.nil_append, List.cons.injEq] at h2
  exact partitionDir_inj h h2.1

theorem under_bundlePath_ne {root : FPath} {st st' : BState} {id : DocId}
    (h : st ≠ st') :
    under (bundlePath root st id) (bundlePath root st' id) = false := by
  rcases hu : under (bundlePath root st id) (bundlePath root st' id) with _ | _
  · rfl
  · exact absurd (under_eq_of_length hu (by rw [bundlePath_length, bundlePath_length]))
      (bundlePath_ne h)

theorem bundlePath_not_mem_inits_statePath (root : FPath) (st st' : BState)
    (id : DocId) : bundlePath root st id ∉ fpathInits (statePath root st') := by
  intro h
  rcases eq_or_length_lt_of_mem_fpathInits h with he | hlt
  · have := congrArg List.length he
    rw [bundlePath_length, statePath_length] at this
    omega
  · rw [bundlePath_length, statePath_length] at hlt
    omega

theorem mem_inits_bundlePath_eq {root : FPath} {st st' : BState} {id : DocId}
    (h : bundlePath root st id ∈ fpathInits (bundlePath root st' id)) :
    st = st' := by
  rcases eq_or_length_lt_of_mem_fpathInits h with he | hlt
  · by_contra hne
    exact bundlePath_ne hne he
  · rw [bundlePath_length, bundlePath_length] at hlt
    omega

/-! ## Rename and transition lemmas -/

theorem rename_ok {fs : FS} {src dst : FPath} (hsrc : fs.isDir src = true)
    (hdst : fs.present dst = false) :
    fs.rename src dst = Except.ok { fs with
      dirs := fs.dirs.map (moveEntry src dst),
      files := fs.files.map (moveEntry src dst) } := by
  unfold FS.rename
  rw [hsrc, hdst]
  rfl

theorem rename_notFound {fs : FS} {src : FPath} (dst : FPath)
    (hsrc : fs.isDir src = false) :
    fs.rename src dst = Except.error IoErr.notFound := by
  unfold FS.rename
  rw [hsrc]
  rfl

theorem rename_conflict {fs : FS} {src dst : FPath} (hsrc : fs.isDir src = true)
    (hdst : fs.present dst = true) :
    fs.rename src dst = Except.error IoErr.alreadyExists := by
  unfold FS.rename
  rw [hsrc, hdst]
  rfl

theorem present_false_parts {fs : FS} {q : FPath} (h : fs.present q = false) :
    fs.isDir q = false ∧ fs.isFile q = false := by
  unfold FS.present at h
  rcases hd : fs.isDir q with _ | _
  · rcases hf : fs.isFile q with _ | _
    · exact ⟨rfl, rfl⟩
    · rw [hd, hf] at h; exact absurd h (by simp)
  · rw [hd] at h; exact absurd h (by simp)

theorem present_createDirAll_bundlePath (fs : FS) (root : FPath) (id : DocId)
    (now : Nat) (st st' : BState) :
    (fs.createDirAll (statePath root st') now).present (bundlePath root st id)
      = fs.present (bundlePath root st id) := by
  unfold FS.present
  rw [isFile_createDirAll, isDir_createDirAll,
    decide_eq_false (bundlePath_not_mem_inits_statePath root st st' id)]
  simp

theorem moveBundle_notFound (fs : FS) (root : FPath) (id : DocId) (now : Nat)
    (s d : BState) (h : fs.isDir (bundlePath root s id) = false) :
    (fs.createDirAll (statePath root d) now).rename
      (bundlePath root s id) (bundlePath root d id)
      = Except.error IoErr.notFound := by
  apply rename_notFound
  rw [isDir_createDirAll, h,
    decide_eq_false (bundlePath_not_mem_inits_statePath root s d id)]
  rfl

theorem moveBundle_conflict (fs : FS) (root : FPath) (id : DocId) (now : Nat)
    (s d : BState) (hs : fs.isDir (bundlePath root s id) = true)
    (hd : fs.present (bundlePath root d id) = true) :
    (fs.createDirAll (statePath root d) now).rename
      (bundlePath root s id) (bundlePath root d id)
      = Except.error IoErr.alreadyExists := by
  apply rename_conflict
  · rw [isDir_createDirAll, hs]; rfl
  · rw [present_createDirAll_bundlePath, hd]

theorem moveBundle_ok (fs : FS) (root : FPath) (id : DocId) (now : Nat)
    (s d : BState) (hne : s ≠ d)
    (hs : fs.isDir (bundlePath root s id) = true)
    (hd : fs.present (bundlePath root d id) = false) :
    ∃ fs', (fs.createDirAll (statePath root d) now).rename
        (bundlePath root s id) (bundlePath root d id) = Except.ok fs'
      ∧ fs'.isDir (bundlePath root d id) = true
      ∧ fs'.isDir (bundlePath root s id) = false
      ∧ (∀ r : FPath, fs.isFile (bundlePath root s id ++ r) = true →
          fs'.isFile (bundlePath root d id ++ r) = true)
      ∧ (∀ q : FPath, under (bundlePath root d id) q = false →
          under (bundlePath root s id) q = false →
          fs'.isDir q = (fs.createDirAll (statePath root d) now).isDir q
          ∧ fs'.isFile q = fs.isFile q)
      ∧ fs'.failing = fs.failing := by
  have hs1 : (fs.createDirAll (statePath root d) now).isDir
      (bundlePath root s id) = true := by
    rw [isDir_createDirAll, hs]; rfl
  have hd1 : (fs.createDirAll (statePath root d) now).present
      (bundlePath root d id) = false := by
    rw [present_createDirAll_bundlePath, hd]
  refine ⟨_, rename_ok hs1 hd1, ?_, ?_, ?_, ?_, rfl⟩
  · show ((fs.createDirAll (statePath root d) now).dirs.map
      (moveEntry (bundlePath root s id) (bundlePath root d id))).any
        (fun e => e.fst == bundlePath root d id) = true
    exact any_moveEntry_dst _ _ _ hs1
  · show ((fs.createDirAll (statePath root d) now).dirs.map
      (moveEntry (bundlePath root s id) (bundlePath root d id))).any
        (fun e => e.fst == bundlePath root s id) = false
    exact any_moveEntry_src _ _ _
      (under_bundlePath_ne (fun h => hne h.symm))
  · intro r hr
    show ((fs.createDirAll (statePath root d) now).files.map
      (moveEntry (bundlePath root s id) (bundlePath root d id))).any
        (fun e => e.fst == (bundlePath root d id ++ r)) = true
    apply any_moveEntry_sub
    exact hr
  · intro q hdq hsq
    constructor
    · show ((fs.createDirAll (statePath root d) now).dirs.map
        (moveEntry (bundlePath root s id) (bundlePath root d id))).any
          (fun e => e.fst == q) = _
      exact any_moveEntry_eq _ _ _ q hdq hsq
    · show ((fs.createDirAll (statePath root d) now).files.map
        (moveEntry (bundlePath root s id) (bundlePath root d id))).any
          (fun e => e.fst == q) = _
      rw [any_moveEntry_eq _ _ _ q hdq hsq]
      rw [show (fs.createDirAll (statePath root d) now).files = fs.files from rfl]
      rfl

/-- C2: `commit()` on a `Staging` bundle atomically relocates the bundle
directory from the staging to the inbox partition, fails with `Conflict`
(`alreadyExists`) if an inbox entry with the same identifier already
exists, and fails with `NotFound` if the staging source directory is
absent; `archive()` on an `Inboxed` bundle satisfies the same contract for
the inbox-to-archive relocation. -/
theorem c2_commit_archive_contract (fs : FS) (root : FPath) (id : DocId)
    (now : Nat) :
    (fs.isDir (bundlePath root BState.staging id) = false →
      Bundle.commit fs root id now = Except.error IoErr.notFound)
    ∧ (fs.isDir (bundlePath root BState.staging id) = true →
        fs.present (bundlePath root BState.inboxed id) = true →
        Bundle.commit fs root id now = Except.error IoErr.alreadyExists)
    ∧ (fs.isDir (bundlePath root BState.staging id) = true →
        fs.present (bundlePath root BState.inboxed id) = false →
        ∃ fs', Bundle.commit fs root id now = Except.ok fs'
          ∧ fs'.isDir (bundlePath root BState.inboxed id) = true
          ∧ fs'.isDir (bundlePath root BState.staging id) = false
          ∧ (∀ r : FPath,
              fs.isFile (bundlePath root BState.staging id ++ r) = true →
              fs'.isFile (bundlePath root BState.inboxed id ++ r) = true))
    ∧ (fs.isDir (bundlePath root BState.inboxed id) = false →
      Bundle.archive fs root id now = Except.error IoErr.notFound)
    ∧ (fs.isDir (bundlePath root BState.inboxed id) = true →
        fs.present (bundlePath root BState.archived id) = true →
        Bundle.archive fs root id now = Except.error IoErr.alreadyExists)
    ∧ (fs.isDir (bundlePath root BState.inboxed id) = true →
        fs.present (bundlePath root BState.archived id) = false →
        ∃ fs', Bundle.archive fs root id now = Except.ok fs'
          ∧ fs'.isDir (bundlePath root BState.archived id) = true
          ∧ fs'.isDir (bundlePath root BState.inboxed id) = false
          ∧ (∀ r : FPath,
              fs.isFile (bundlePath root BState.inboxed id ++ r) = true →
              fs'.isFile (bundlePath root BState.archived id ++ r) = true)) := by
  refine ⟨?_, ?_, ?_, ?_, ?_, ?_⟩
  · intro h
    exact moveBundle_notFound fs root id now BState.staging BState.inboxed h
  · intro hs hd
    exact moveBundle_conflict fs root id now BState.staging BState.inboxed hs hd
  · intro hs hd
    obtain ⟨fs', h1, h2, h3, h4, _, _⟩ :=
      moveBundle_ok fs root id now BState.staging BState.inboxed (by decide) hs hd
    exact ⟨fs', h1, h2, h3, h4⟩
  · intro h
    exact moveBundle_notFound fs root id now BState.inboxed BState.archived h
  · intro hs hd
    exact moveBundle_conflict fs root id now BState.inboxed BState.archived hs hd
  · intro hs hd
    obtain ⟨fs', h1, h2, h3, h4, _, _⟩ :=
      moveBundle_ok fs root id now BState.inboxed BState.archived (by decide) hs hd
    exact ⟨fs', h1, h2, h3, h4⟩

/-- C1: at every instant a bundle's directory resides under at most one
partition; after `stage()` the sequence `commit()`, `archive()` succeeds
and moves the bundle through exactly staging → inbox → archive, each
transition being the single atomic rename of `moveBundle`/`FS.rename`, so
the bundle is never resident in two partitions at once. -/
theorem c1_lifecycle (fs0 : FS) (root : FPath) (id : DocId)
    (now1 now2 now3 : Nat)
    (hfresh : ∀ st : BState, fs0.present (bundlePath root st id) = false) :
    residence fs0 root id = []
    ∧ residence (Repository.stage fs0 root id now1) root id = [BState.staging]
    ∧ ∃ fs2, Bundle.commit (Repository.stage fs0 root id now1) root id now2
        = Except.ok fs2
      ∧ residence fs2 root id = [BState.inboxed]
      ∧ ∃ fs3, Bundle.archive fs2 root id now3 = Except.ok fs3
        ∧ residence fs3 root id = [BState.archived] := by
  have h0 : ∀ st : BState, fs0.isDir (bundlePath root st id) = false
      ∧ fs0.isFile (bundlePath root st id) = false :=
    fun st => present_false_parts (hfresh st)
  have hstage : ∀ st : BState,
      (Repository.stage fs0 root id now1).isDir (bundlePath root st id)
        = (fs0.isDir (bundlePath root st id) || decide (st = BState.staging)) := by
    intro st
    unfold Repository.stage
    rw [isDir_createDirAll]
    congr 1
    rcases eq_or_ne st BState.staging with rfl | hne
    · rw [decide_eq_true (mem_fpathInits_self _), decide_eq_true rfl]
    · rw [decide_eq_false (fun hmem => hne (mem_inits_bundlePath_eq hmem)),
        decide_eq_false hne]
  have h1s : (Repository.stage fs0 root id now1).isDir
      (bundlePath root BState.staging id) = true := by
    rw [hstage]
    simp
  have h1i : (Repository.stage fs0 root id now1).isDir
      (bundlePath root BState.inboxed id) = false := by
    rw [hstage, (h0 BState.inboxed).1]
    rfl
  have h1a : (Repository.stage fs0 root id now1).isDir
      (bundlePath root BState.archived id) = false := by
    rw [hstage, (h0 BState.archived).1]
    rfl
  have h1fi : ∀ st : BState,
      (Repository.stage fs0 root id now1).isFile (bundlePath root st id)
        = false := by
    intro st
    exact (h0 st).2
  have hpres1i : (Repository.stage fs0 root id now1).present
      (bundlePath root BState.inboxed id) = false := by
    unfold FS.present
    rw [h1i, h1fi]
    rfl
  obtain ⟨fs2, hc, hc_d, hc_s, _, hc_other, _⟩ :=
    moveBundle_ok (Repository.stage fs0 root id now1) root id now2
      BState.staging BState.inboxed (by decide) h1s hpres1i
  have h2a : fs2.isDir (bundlePath root BState.archived id) = false
      ∧ fs2.isFile (bundlePath root BState.archived id) = false := by
    obtain ⟨hdq, hfq⟩ := hc_other (bundlePath root BState.archived id)
      (under_bundlePath_ne (by decide)) (under_bundlePath_ne (by decide))
    constructor
    · rw [hdq, isDir_createDirAll, h1a, decide_eq_false
        (bundlePath_not_mem_inits_statePath root BState.archived BState.inboxed id)]
      rfl
    · rw [hfq, h1fi]
  have hpres2a : fs2.present (bundlePath root BState.archived id) = false := by
    unfold FS.present
    rw [h2a.1, h2a.2]
    rfl
  obtain ⟨fs3, ha, ha_d, ha_i, _, ha_other, _⟩ :=
    moveBundle_ok fs2 root id now3 BState.inboxed BState.archived
      (by decide) hc_d hpres2a
  have h3s : fs3.isDir (bundlePath root BState.staging id) = false := by
    obtain ⟨hdq, _⟩ := ha_other (bundlePath root BState.staging id)
      (under_bundlePath_ne (by decide)) (under_bundlePath_ne (by decide))
    rw [hdq, isDir_createDirAll, hc_s, decide_eq_false
      (bundlePath_not_mem_inits_statePath root BState.staging BState.archived id)]
    rfl
  refine ⟨?_, ?_, fs2, hc, ?_, fs3, ha, ?_⟩
  · simp [residence, (h0 BState.staging).1, (h0 BState.inboxed).1,
      (h0 BState.archived).1]
  · simp [residence, h1s, h1i, h1a]
  · simp [residence, hc_d, hc_s, h2a.1]
  · simp [residence, ha_d, ha_i, h3s]

/-- C3: for every `DocId` value `x`, parsing the canonical textual encoding
of `x` yields `x` again: `DocId::from_str(x.to_base58()) == x`. -/
theorem c3_docid_roundtrip (x : DocId) :
    DocId.from_str (DocId.to_base58 x) = Except.ok x := by
  unfold DocId.from_str DocId.to_base58
  rw [fromBase58_toBase58 x.val x.2.2]
  simp only [x.2, dite_true, reduceDIte]
  rfl

/-- C4: every string that contains a character outside the base-58
alphabet, or whose base-58 decoding has a byte length other than 16, is
rejected by `DocId::from_str` (the spec's `InvalidIdentifier`); no
identifier value is returned for it. -/
theorem c4_from_str_invalid (s : List Char)
    (h : (∃ c ∈ s, c ∉ ALPHABET)
      ∨ (∃ bs, fromBase58 s = Except.ok bs ∧ bs.length ≠ 16)) :
    ∃ e, DocId.from_str s = Except.error e := by
  rcases h with ⟨c, hcs, hval⟩ | ⟨bs, hok, hlen⟩
  · have hdig := decodeDigits_of_bad hcs (b58Digit_none hval)
    have hfb : fromBase58 s = Except.error ParseErr.invalidBase58 := by
      unfold fromBase58
      rw [hdig]
    refine ⟨ParseErr.invalidBase58, ?_⟩
    unfold DocId.from_str
    rw [hfb]
  · refine ⟨ParseErr.badLength, ?_⟩
    unfold DocId.from_str
    rw [hok]
    have : ¬ UuidBytes bs := fun hu => hlen hu.1
    simp only [this, dite_false, reduceDIte]

/-! ## Fragment access lemmas -/

theorem openRead_absent {fs : FS} {p : FPath} (hfail : p ∉ fs.failing)
    (h : fs.isFile p = false) :
    fs.openRead p = Except.error IoErr.notFound := by
  unfold FS.openRead
  rw [if_neg (by simpa using hfail)]
  cases hfind : fs.files.find? (fun e => e.fst == p) with
  | none => rfl
  | some e =>
      have hpe := List.find?_some hfind
      have hmem := List.mem_of_find?_eq_some hfind
      unfold FS.isFile at h
      rw [List.any_eq_false] at h
      exact absurd hpe (by simpa using h e hmem)

theorem openRead_file {fs : FS} {p : FPath} (hfail : p ∉ fs.failing)
    (h : fs.isFile p = true) :
    ∃ c, fs.openRead p = Except.ok c := by
  unfold FS.openRead
  rw [if_neg (by simpa using hfail)]
  cases hfind : fs.files.find? (fun e => e.fst == p) with
  | none =>
      rw [List.find?_eq_none] at hfind
      unfold FS.isFile at h
      rw [List.any_eq_true] at h
      obtain ⟨e, he, hpe⟩ := h
      exact absurd hpe (by simpa using hfind e he)
  | some e => exact ⟨e.snd, rfl⟩

/-- C7: for every bundle state and fragment kind, `read(kind)` on a bundle
whose fragment file is absent returns a successful empty result (given no
unrelated injected I/O failure on the fragment path), while the typed
accessors `read_plaintext` / `read_metadata` fail with the missing-fragment
error exactly when their fragment is absent. -/
theorem c7_fragment_absence (utf8 : List Nat → Option String)
    (load : List Nat → Option Metadata) (fs : FS) (root : FPath)
    (st : BState) (id : DocId) :
    (∀ kind : Kind, fragmentPath root st id kind ∉ fs.failing →
      fs.isFile (fragmentPath root st id kind) = false →
      Bundle.read fs root st id kind = Except.ok none)
    ∧ (fragmentPath root st id Kind.plaintext ∉ fs.failing →
        (Bundle.read_plaintext utf8 fs root st id
            = Except.error (RepoErr.missingFragment Kind.plaintext)
          ↔ fs.isFile (fragmentPath root st id Kind.plaintext) = false))
    ∧ (fragmentPath root st id Kind.metadata ∉ fs.failing →
        (Bundle.read_metadata load fs root st id
            = Except.error (RepoErr.missingFragment Kind.metadata)
          ↔ fs.isFile (fragmentPath root st id Kind.metadata) = false)) := by
  have hread : ∀ kind : Kind, fragmentPath root st id kind ∉ fs.failing →
      fs.isFile (fragmentPath root st id kind) = false →
      Bundle.read fs root st id kind = Except.ok none := by
    intro kind hfail habs
    unfold Bundle.read
    rw [openRead_absent hfail habs]
  have hreadSome : ∀ kind : Kind, fragmentPath root st id kind ∉ fs.failing →
      fs.isFile (fragmentPath root st id kind) = true →
      ∃ c, Bundle.read fs root st id kind = Except.ok (some c) := by
    intro kind hfail hfile
    obtain ⟨c, hc⟩ := openRead_file hfail hfile
    refine ⟨c, ?_⟩
    unfold Bundle.read
    rw [hc]
  refine ⟨hread, ?_, ?_⟩
  · intro hfail
    constructor
    · intro h
      rcases hfile : fs.isFile (fragmentPath root st id Kind.plaintext) with _ | _
      · rfl
      · obtain ⟨c, hc⟩ := hreadSome Kind.plaintext hfail hfile
        have hval : Bundle.read_plaintext utf8 fs root st id
            = (match utf8 c with
               | some s => Except.ok s
               | none => Except.error RepoErr.decodeFailed) := by
          unfold Bundle.read_plaintext
          rw [hc]
        rw [hval] at h
        cases hu : utf8 c with
        | some s => rw [hu] at h; exact absurd h (by simp)
        | none => rw [hu] at h; exact absurd h (by simp)
    · intro habs
      unfold Bundle.read_plaintext
      rw [hread Kind.plaintext hfail habs]
  · intro hfail
    constructor
    · intro h
      rcases hfile : fs.isFile (fragmentPath root st id Kind.metadata) with _ | _
      · rfl
      · obtain ⟨c, hc⟩ := hreadSome Kind.metadata hfail hfile
        have hval : Bundle.read_metadata load fs root st id
            = (match load c with
               | some m => Except.ok m
               | none => Except.error RepoErr.decodeFailed) := by
          unfold Bundle.read_metadata
          rw [hc]
        rw [hval] at h
        cases hu : load c with
        | some m => rw [hu] at h; exact absurd h (by simp)
        | none => rw [hu] at h; exact absurd h (by simp)
    · intro habs
      unfold Bundle.read_metadata
      rw [hread Kind.metadata hfail habs]

/-- C8: on a staging bundle, `write(kind)` create-or-truncates the
fragment file so that the path carries exactly the new bytes (any prior
content for that kind is gone), and a subsequent `read(kind)` before any
transition returns content byte-identical to what was written. -/
theorem c8_write_then_read (fs : FS) (root : FPath) (id : DocId) (kind : Kind)
    (content : List Nat)
    (hdir : fs.isDir (bundlePath root BState.staging id) = true)
    (hfail : fragmentPath root BState.staging id kind ∉ fs.failing) :
    ∃ fs', Bundle.write fs root id kind content = Except.ok fs'
      ∧ fs'.files.find?
          (fun e => e.fst == fragmentPath root BState.staging id kind)
          = some (fragmentPath root BState.staging id kind, content)
      ∧ Bundle.read fs' root BState.staging id kind
          = Except.ok (some content) := by
  have hparent : (fragmentPath root BState.staging id kind).dropLast
      = bundlePath root BState.staging id := by
    unfold fragmentPath
    rw [List.dropLast_concat]
  have hw : Bundle.write fs root id kind content = Except.ok { fs with
      files := (fs.files.filter
          (fun e => !(e.fst == fragmentPath root BState.staging id kind)))
        ++ [(fragmentPath root BState.staging id kind, content)] } := by
    unfold Bundle.write FS.writeFile
    rw [if_neg (by simpa using hfail), hparent, hdir]
    rfl
  refine ⟨_, hw, ?_, ?_⟩
  · rw [List.find?_append]
    have hnone : (fs.files.filter
        (fun e => !(e.fst == fragmentPath root BState.staging id kind))).find?
          (fun e => e.fst == fragmentPath root BState.staging id kind)
        = none := by
      rw [List.find?_eq_none]
      intro e he
      have := (List.mem_filter.mp he).2
      simpa using this
    rw [hnone]
    simp [List.find?]
  · unfold Bundle.read FS.openRead
    rw [if_neg (by simpa using hfail)]
    rw [List.find?_append]
    have hnone : (fs.files.filter
        (fun e => !(e.fst == fragmentPath root BState.staging id kind))).find?
          (fun e => e.fst == fragmentPath root BState.staging id kind)
        = none := by
      rw [List.find?_eq_none]
      intro e he
      have := (List.mem_filter.mp he).2
      simpa using this
    rw [hnone]
    simp [List.find?]

/-- C9: `Inbox::get` and `Archive::get` return an empty result exactly when
the metadata stat of the bundle's directory fails — for any reason,
including injected I/O errors on an existing directory, not only absence —
and the handle they return on success carries the requested identifier
(the `Option` return type surfaces no error to the caller). -/
theorem c9_get_swallows_stat_errors (fs : FS) (root : FPath) (id : DocId) :
    (Inbox.get fs root id = none
      ↔ ∃ e, fs.stat (bundlePath root BState.inboxed id) = Except.error e)
    ∧ (Archive.get fs root id = none
      ↔ ∃ e, fs.stat (bundlePath root BState.archived id) = Except.error e)
    ∧ (∀ b, Inbox.get fs root id = some b → b = id)
    ∧ (∀ b, Archive.get fs root id = some b → b = id) := by
  refine ⟨?_, ?_, ?_, ?_⟩
  · unfold Inbox.get
    cases hs : fs.stat (bundlePath root BState.inboxed id) with
    | error e => simp [hs]
    | ok t => simp [hs]
  · unfold Archive.get
    cases hs : fs.stat (bundlePath root BState.archived id) with
    | error e => simp [hs]
    | ok t => simp [hs]
  · intro b hb
    unfold Inbox.get at hb
    cases hs : fs.stat (bundlePath root BState.inboxed id) with
    | error e => rw [hs] at hb; exact absurd hb (by simp)
    | ok t => rw [hs] at hb; injection hb with hb; exact hb.symm
  · intro b hb
    unfold Archive.get at hb
    cases hs : fs.stat (bundlePath root BState.archived id) with
    | error e => rw [hs] at hb; exact absurd hb (by simp)
    | ok t => rw [hs] at hb; injection hb with hb; exact hb.symm

/-- C10: the string-to-`Kind` conversion maps exactly the four canonical
names to the canonical variants and every other string `s` to
`Kind::Other { name: s }`; the canonical filename of the kind obtained
from `"document"` is `"document.pdf"`, while converting the string
`"document.pdf"` yields an open-variant kind whose filename collides with
that canonical filename. -/
theorem c10_kind_string_mapping :
    Kind.fromString "document" = Kind.document
    ∧ Kind.fromString "preview" = Kind.preview
    ∧ Kind.fromString "plaintext" = Kind.plaintext
    ∧ Kind.fromString "metadata" = Kind.metadata
    ∧ (∀ s : String,
        s ∉ (["document", "preview", "plaintext", "metadata"] : List String) →
        Kind.fromString s = Kind.other s)
    ∧ (Kind.fromString "document").filename = "document.pdf"
    ∧ Kind.fromString "document.pdf" = Kind.other "document.pdf"
    ∧ (Kind.fromString "document.pdf").filename
        = (Kind.fromString "document").filename := by
  refine ⟨by decide, by decide, by decide, by decide, ?_, by decide, by decide,
    by decide⟩
  intro s hs
  simp only [List.mem_cons, List.not_mem_nil, or_false, not_or] at hs
  obtain ⟨h1, h2, h3, h4⟩ := hs
  unfold Kind.fromString
  rw [if_neg h1, if_neg h2, if_neg h3, if_neg h4]

/-! ## Injectivity of the decoder on accepted strings -/

theorem takeWhile_zero_replicate_append (z : Nat) (l : List Nat)
    (hl : ∀ d, l.head? = some d → d ≠ 0) :
    (List.replicate z (0 : Nat) ++ l).takeWhile (fun x => x == 0)
      = List.replicate z 0 := by
  induction z with
  | zero =>
      simp only [List.replicate, List.nil_append]
      cases l with
      | nil => rfl
      | cons a t =>
          have : a ≠ 0 := hl a rfl
          simp [List.takeWhile_cons, this]
  | succ z ih =>
      rw [List.replicate_succ, List.cons_append, List.takeWhile_cons]
      simp [ih]

theorem takeWhile_one_map_alph (ds : List Nat) (h : ∀ d ∈ ds, d < 58) :
    ((ds.map (fun d => ALPHABET.getD d ' ')).takeWhile (fun c => c == '1')).length
      = (ds.takeWhile (fun d => d == 0)).length := by
  induction ds with
  | nil => rfl
  | cons d t ih =>
      have hd : d < 58 := h d (List.mem_cons_self d t)
      have heq : (ALPHABET.getD d ' ' == '1') = (d == 0) := alph_one_iff ⟨d, hd⟩
      rw [List.map_cons, List.takeWhile_cons, List.takeWhile_cons, heq]
      rcases h0 : (d == 0) with _ | _
      · simp
      · simpa using ih (fun x hx => h x (List.mem_cons_of_mem _ hx))

theorem fromBase58_ok_decomp {s : List Char} {bs : List Nat}
    (h : fromBase58 s = Except.ok bs) :
    ∃ ds, decodeDigits s = some ds
      ∧ bs = List.replicate (s.takeWhile (fun c => c == '1')).length 0
          ++ beDigits 256 (radixVal 58 ds) := by
  unfold fromBase58 at h
  cases hd : decodeDigits s with
  | none => rw [hd] at h; exact absurd h (by simp)
  | some ds =>
      rw [hd] at h
      injection h with h
      exact ⟨ds, rfl, h.symm⟩

theorem beDigits_head_ne_zero (b n : Nat) (hb : 2 ≤ b) :
    ∀ d, (beDigits b n).head? = some d → d ≠ 0 := by
  intro d hd
  have hne : n ≠ 0 := by
    intro h0
    rw [beDigits_eq_digits hb, h0, Nat.digits_zero, List.reverse_nil] at hd
    exact Option.noConfusion hd
  rw [beDigits_eq_digits hb, List.head?_reverse,
    List.getLast?_eq_getLast _ (Nat.digits_ne_nil_iff_ne_zero.mpr hne)] at hd
  have hgl := Nat.getLast_digit_ne_zero b hne
  rw [Option.some_inj] at hd
  rw [hd] at hgl
  exact hgl

theorem fromBase58_ok_inj {s1 s2 : List Char} {bs : List Nat}
    (h1 : fromBase58 s1 = Except.ok bs) (h2 : fromBase58 s2 = Except.ok bs) :
    s1 = s2 := by
  obtain ⟨ds1, hd1, hbs1⟩ := fromBase58_ok_decomp h1
  obtain ⟨ds2, hd2, hbs2⟩ := fromBase58_ok_decomp h2
  obtain ⟨hs1, hlt1⟩ := decodeDigits_some hd1
  obtain ⟨hs2, hlt2⟩ := decodeDigits_some hd2
  -- leading-'1' counts agree with the leading-zero-digit counts
  have hz1 : (s1.takeWhile (fun c => c == '1')).length
      = (ds1.takeWhile (fun d => d == 0)).length := by
    rw [hs1]; exact takeWhile_one_map_alph ds1 hlt1
  have hz2 : (s2.takeWhile (fun c => c == '1')).length
      = (ds2.takeWhile (fun d => d == 0)).length := by
    rw [hs2]; exact takeWhile_one_map_alph ds2 hlt2
  -- the byte outputs determine the digit strings
  have hv1 : radixVal 58 ds1
      = radixVal 58 (ds1.dropWhile (fun d => d == 0)) := by
    conv_lhs => rw [← replicate_takeWhile_append_dropWhile ds1]
    rw [radixVal_replicate_zero_append]
  have hv2 : radixVal 58 ds2
      = radixVal 58 (ds2.dropWhile (fun d => d == 0)) := by
    conv_lhs => rw [← replicate_takeWhile_append_dropWhile ds2]
    rw [radixVal_replicate_zero_append]
  -- split bs into its zero prefix and nonzero-headed tail, both ways
  have hbs1' : bs.takeWhile (fun x => x == 0)
      = List.replicate (s1.takeWhile (fun c => c == '1')).length 0 := by
    rw [hbs1]
    exact takeWhile_zero_replicate_append _ _
      (beDigits_head_ne_zero 256 _ (by omega))
  have hbs2' : bs.takeWhile (fun x => x == 0)
      = List.replicate (s2.takeWhile (fun c => c == '1')).length 0 := by
    rw [hbs2]
    exact takeWhile_zero_replicate_append _ _
      (beDigits_head_ne_zero 256 _ (by omega))
  have hzeq : (s1.takeWhile (fun c => c == '1')).length
      = (s2.takeWhile (fun c => c == '1')).length := by
    have := hbs1' ▸ hbs2'
    have hlen := congrArg List.length this
    simpa using hlen
  have htail : beDigits 256 (radixVal 58 ds1) = beDigits 256 (radixVal 58 ds2) := by
    have h12 : List.replicate (s1.takeWhile (fun c => c == '1')).length 0
        ++ beDigits 256 (radixVal 58 ds1)
        = List.replicate (s2.takeWhile (fun c => c == '1')).length 0
          ++ beDigits 256 (radixVal 58 ds2) := by
      rw [← hbs1, ← hbs2]
    rw [hzeq] at h12
    exact List.append_cancel_left h12
  -- hence the base-58 values agree
  have hval : radixVal 58 ds1 = radixVal 58 ds2 := by
    have h1' := congrArg (fun l => Nat.ofDigits 256 l.reverse) htail
    simpa [beDigits_eq_digits (by omega : (2:Nat) ≤ 256),
      List.reverse_reverse, Nat.ofDigits_digits] using h1'
  -- and the canonical base-58 digit strings agree
  have htails : ds1.dropWhile (fun d => d == 0) = ds2.dropWhile (fun d => d == 0) := by
    have c1 : beDigits 58 (radixVal 58 ds1) = ds1.dropWhile (fun d => d == 0) := by
      rw [hv1]
      apply beDigits_radixVal_self (by omega)
      · intro x hx
        exact hlt1 x ((List.dropWhile_sublist _).subset hx)
      · intro hne
        have h1' := List.head_dropWhile_not (fun d => d == 0) ds1 hne
        simpa using h1'
    have c2 : beDigits 58 (radixVal 58 ds2) = ds2.dropWhile (fun d => d == 0) := by
      rw [hv2]
      apply beDigits_radixVal_self (by omega)
      · intro x hx
        exact hlt2 x ((List.dropWhile_sublist _).subset hx)
      · intro hne
        have h2' := List.head_dropWhile_not (fun d => d == 0) ds2 hne
        simpa using h2'
    rw [← c1, ← c2, hval]
  -- reassemble the digit strings
  have hds : ds1 = ds2 := by
    conv_lhs => rw [← List.takeWhile_append_dropWhile (fun d => d == 0) ds1]
    conv_rhs => rw [← List.takeWhile_append_dropWhile (fun d => d == 0) ds2]
    rw [takeWhile_zero_replicate ds1, takeWhile_zero_replicate ds2, htails]
    rw [← hz1, ← hz2, hzeq]
  rw [hs1, hs2, hds]

theorem from_str_eq_of_fromBase58_ok {s : List Char} {bs : List Nat}
    (hf : fromBase58 s = Except.ok bs) :
    DocId.from_str s = (if h : UuidBytes bs then Except.ok (⟨bs, h⟩ : DocId)
      else Except.error ParseErr.badLength) := by
  unfold DocId.from_str
  rw [hf]

theorem from_str_ok_fromBase58 {s : List Char} {x : DocId}
    (h : DocId.from_str s = Except.ok x) : fromBase58 s = Except.ok x.val := by
  cases hf : fromBase58 s with
  | error e =>
      unfold DocId.from_str at h
      rw [hf] at h
      exact absurd h (by simp)
  | ok bs =>
      rw [from_str_eq_of_fromBase58_ok hf] at h
      by_cases hu : UuidBytes bs
      · rw [dif_pos hu] at h
        injection h with h
        rw [← h]
      · rw [dif_neg hu] at h
        exact absurd h (by simp)

theorem from_str_ok_inj {s1 s2 : List Char} {x : DocId}
    (h1 : DocId.from_str s1 = Except.ok x) (h2 : DocId.from_str s2 = Except.ok x) :
    s1 = s2 :=
  fromBase58_ok_inj (from_str_ok_fromBase58 h1) (from_str_ok_fromBase58 h2)

/-! ## Order and sorted-map lemmas -/

theorem lexLt_trichot : ∀ s t : List Nat,
    lexLt s t = false → lexLt t s = false → s = t := by
  intro s
  induction s with
  | nil =>
      intro t h1 h2
      cases t with
      | nil => rfl
      | cons b bt => exact absurd h1 (by simp [lexLt])
  | cons a st ih =>
      intro t h1 h2
      cases t with
      | nil => exact absurd h2 (by simp [lexLt])
      | cons b bt =>
          unfold lexLt at h1 h2
          by_cases hab : a < b
          · rw [if_pos hab] at h1; exact absurd h1 (by simp)
          · rw [if_neg hab] at h1
            by_cases hba : b < a
            · rw [if_pos hba] at h2; exact absurd h2 (by simp)
            · have heq : a = b := by omega
              rw [if_neg hba] at h2
              rw [if_pos heq] at h1
              rw [if_pos heq.symm] at h2
              rw [heq, ih bt h1 h2]

theorem lexLt_trans : ∀ s t u : List Nat,
    lexLt s t = true → lexLt t u = true → lexLt s u = true := by
  intro s
  induction s with
  | nil =>
      intro t u h1 h2
      cases t with
      | nil => exact absurd h1 (by simp [lexLt])
      | cons b bt =>
          cases u with
          | nil => exact absurd h2 (by simp [lexLt])
          | cons c ct => simp [lexLt]
  | cons a st ih =>
      intro t u h1 h2
      cases t with
      | nil => exact absurd h1 (by simp [lexLt])
      | cons b bt =>
          cases u with
          | nil => exact absurd h2 (by simp [lexLt])
          | cons c ct =>
              unfold lexLt at h1 h2 ⊢
              by_cases hab : a < b
              · by_cases hbc : b < c
                · rw [if_pos (by omega : a < c)]
                · rw [if_neg hbc] at h2
                  by_cases hbc2 : b = c
                  · rw [if_pos (by omega : a < c)]
                  · rw [if_neg hbc2] at h2; exact absurd h2 (by simp)
              · rw [if_neg hab] at h1
                by_cases hab2 : a = b
                · rw [if_pos hab2] at h1
                  by_cases hbc : b < c
                  · rw [if_pos (by omega : a < c)]
                  · rw [if_neg hbc] at h2
                    by_cases hbc2 : b = c
                    · rw [if_pos hbc2] at h2
                      rw [if_neg (by omega : ¬ a < c), if_pos (by omega : a = c)]
                      exact ih bt ct h1 h2
                    · rw [if_neg hbc2] at h2; exact absurd h2 (by simp)
                · rw [if_neg hab2] at h1; exact absurd h1 (by simp)

theorem keyLt_trichot {a b : Nat × DocId} (h1 : keyLt a b = false)
    (h2 : keyLt b a = false) : a = b := by
  unfold keyLt at h1 h2
  by_cases hlt : a.1 < b.1
  · rw [if_pos hlt] at h1; exact absurd h1 (by simp)
  · rw [if_neg hlt] at h1
    by_cases hlt2 : b.1 < a.1
    · rw [if_pos hlt2] at h2; exact absurd h2 (by simp)
    · have heq : a.1 = b.1 := by omega
      rw [if_neg hlt2, if_pos heq.symm] at h2
      rw [if_pos heq] at h1
      have hv : a.2.val = b.2.val := lexLt_trichot _ _ h1 h2
      have hd : a.2 = b.2 := Subtype.ext hv
      exact Prod.ext heq hd

theorem keyLt_trans {a b c : Nat × DocId} (h1 : keyLt a b = true)
    (h2 : keyLt b c = true) : keyLt a c = true := by
  unfold keyLt at h1 h2 ⊢
  by_cases hab : a.1 < b.1
  · by_cases hbc : b.1 < c.1
    · rw [if_pos (by omega : a.1 < c.1)]
    · rw [if_neg hbc] at h2
      by_cases hbc2 : b.1 = c.1
      · rw [if_pos (by omega : a.1 < c.1)]
      · rw [if_neg hbc2] at h2; exact absurd h2 (by simp)
  · rw [if_neg hab] at h1
    by_cases hab2 : a.1 = b.1
    · rw [if_pos hab2] at h1
      by_cases hbc : b.1 < c.1
      · rw [if_pos (by omega : a.1 < c.1)]
      · rw [if_neg hbc] at h2
        by_cases hbc2 : b.1 = c.1
        · rw [if_pos hbc2] at h2
          rw [if_neg (by omega : ¬ a.1 < c.1), if_pos (by omega : a.1 = c.1)]
          exact lexLt_trans _ _ _ h1 h2
        · rw [if_neg hbc2] at h2; exact absurd h2 (by simp)
    · rw [if_neg hab2] at h1; exact absurd h1 (by simp)

theorem mem_btreeInsert {x kv : Nat × DocId} :
    ∀ {l : List (Nat × DocId)}, x ∈ btreeInsert kv l → x = kv ∨ x ∈ l := by
  intro l
  induction l with
  | nil =>
      intro h
      simp only [btreeInsert, List.mem_singleton] at h
      exact Or.inl h
  | cons hd t ih =>
      intro h
      unfold btreeInsert at h
      by_cases h1 : keyLt kv hd = true
      · rw [if_pos h1] at h
        rcases List.mem_cons.mp h with rfl | hmem
        · exact Or.inl rfl
        · exact Or.inr hmem
      · rw [if_neg h1] at h
        by_cases h2 : kv = hd
        · rw [if_pos h2] at h
          rcases List.mem_cons.mp h with rfl | hmem
          · exact Or.inl rfl
          · exact Or.inr (List.mem_cons_of_mem _ hmem)
        · rw [if_neg h2] at h
          rcases List.mem_cons.mp h with rfl | hmem
          · exact Or.inr (List.mem_cons_self _ _)
          · rcases ih hmem with hx | hx
            · exact Or.inl hx
            · exact Or.inr (List.mem_cons_of_mem _ hx)

theorem btreeInsert_pairwise {kv : Nat × DocId} :
    ∀ {l : List (Nat × DocId)},
    l.Pairwise (fun a b => keyLt a b = true) →
    (btreeInsert kv l).Pairwise (fun a b => keyLt a b = true) := by
  intro l
  induction l with
  | nil => intro _; simp [btreeInsert]
  | cons hd t ih =>
      intro h
      rw [List.pairwise_cons] at h
      obtain ⟨hhd, ht⟩ := h
      unfold btreeInsert
      by_cases h1 : keyLt kv hd = true
      · rw [if_pos h1]
        rw [List.pairwise_cons]
        constructor
        · intro x hx
          rcases List.mem_cons.mp hx with rfl | hmem
          · exact h1
          · exact keyLt_trans h1 (hhd x hmem)
        · rw [List.pairwise_cons]
          exact ⟨hhd, ht⟩
      · rw [if_neg h1]
        by_cases h2 : kv = hd
        · rw [if_pos h2]
          rw [List.pairwise_cons]
          exact ⟨fun x hx => h2 ▸ hhd x hx, ht⟩
        · rw [if_neg h2]
          rw [List.pairwise_cons]
          constructor
          · intro x hx
            rcases mem_btreeInsert hx with hxkv | hmem
            · subst hxkv
              have h1' : keyLt x hd = false := by
                rcases hk : keyLt x hd with _ | _
                · rfl
                · exact absurd hk h1
              rcases hk : keyLt hd x with _ | _
              · exact absurd (keyLt_trichot h1' hk) h2
              · rfl
            · exact hhd x hmem
          · exact ih ht

theorem btreeInsert_perm {kv : Nat × DocId} :
    ∀ {l : List (Nat × DocId)}, kv ∉ l →
    (btreeInsert kv l).Perm (kv :: l) := by
  intro l
  induction l with
  | nil => intro _; exact List.Perm.refl _
  | cons hd t ih =>
      intro hmem
      unfold btreeInsert
      by_cases h1 : keyLt kv hd = true
      · rw [if_pos h1]
      · rw [if_neg h1]
        by_cases h2 : kv = hd
        · exact absurd (h2 ▸ List.mem_cons_self kv t) hmem
        · rw [if_neg h2]
          have hrec := ih (fun hx => hmem (List.mem_cons_of_mem _ hx))
          exact (List.Perm.cons hd hrec).trans (List.Perm.swap kv hd t)

theorem foldl_btreeInsert_sorted_perm :
    ∀ (kvs acc : List (Nat × DocId)), kvs.Nodup →
    acc.Pairwise (fun a b => keyLt a b = true) →
    (∀ x ∈ kvs, x ∉ acc) →
    (kvs.foldl (fun m kv => btreeInsert kv m) acc).Pairwise
        (fun a b => keyLt a b = true)
    ∧ (kvs.foldl (fun m kv => btreeInsert kv m) acc).Perm (acc ++ kvs) := by
  intro kvs
  induction kvs with
  | nil =>
      intro acc _ hs _
      refine ⟨hs, ?_⟩
      rw [List.append_nil]
      exact List.Perm.refl _
  | cons kv rest ih =>
      intro acc hnd hs hdisj
      rw [List.nodup_cons] at hnd
      obtain ⟨hkv, hnd'⟩ := hnd
      have hnotin : kv ∉ acc := hdisj kv (List.mem_cons_self kv rest)
      have hins_sorted := @btreeInsert_pairwise kv acc hs
      have hins_perm := @btreeInsert_perm kv acc hnotin
      have hdisj' : ∀ x ∈ rest, x ∉ btreeInsert kv acc := by
        intro x hx hmem
        rcases mem_btreeInsert hmem with hxv | hacc
        · exact hkv (hxv ▸ hx)
        · exact hdisj x (List.mem_cons_of_mem _ hx) hacc
      obtain ⟨h1, h2⟩ := ih (btreeInsert kv acc) hnd' hins_sorted hdisj'
      refine ⟨h1, ?_⟩
      have step1 : (rest.foldl (fun m kv => btreeInsert kv m)
          (btreeInsert kv acc)).Perm ((kv :: acc) ++ rest) :=
        h2.trans (List.Perm.append_right rest hins_perm)
      have step2 : ((kv :: acc) ++ rest).Perm (acc ++ kv :: rest) := by
        rw [List.cons_append]
        exact (List.perm_middle).symm
      exact step1.trans step2

/-! ## Listing lemmas -/

theorem collectEntries_ok_forall {fs : FS} {dir : FPath} :
    ∀ {names : List String} {kvs : List (Nat × DocId)},
    collectEntries fs dir names = Except.ok kvs →
    List.Forall₂ (fun n kv => procEntry fs dir n = Except.ok kv) names kvs := by
  intro names
  induction names with
  | nil =>
      intro kvs h
      unfold collectEntries at h
      injection h with h
      rw [← h]
      exact List.Forall₂.nil
  | cons n rest ih =>
      intro kvs h
      unfold collectEntries at h
      cases hp : procEntry fs dir n with
      | error e =>
          rw [hp] at h
          exact absurd h (by simp)
      | ok kv =>
          rw [hp] at h
          cases hc : collectEntries fs dir rest with
          | error e => rw [hc] at h; exact absurd h (by simp)
          | ok kvs' =>
              rw [hc] at h
              injection h with h
              rw [← h]
              exact List.Forall₂.cons hp (ih hc)

theorem procEntry_ok_parts {fs : FS} {dir : FPath} {n : String}
    {kv : Nat × DocId} (h : procEntry fs dir n = Except.ok kv) :
    fs.stat (dir ++ [n]) = Except.ok kv.1
    ∧ DocId.from_str n.data = Except.ok kv.2 := by
  unfold procEntry at h
  cases hs : fs.stat (dir ++ [n]) with
  | error e => rw [hs] at h; exact absurd h (by simp)
  | ok t =>
      rw [hs] at h
      cases hf : DocId.from_str n.data with
      | error e => rw [hf] at h; exact absurd h (by simp)
      | ok id =>
          rw [hf] at h
          injection h with h
          rw [← h]
          exact ⟨rfl, rfl⟩

theorem collectEntries_kvs_nodup {fs : FS} {dir : FPath}
    {names : List String} {kvs : List (Nat × DocId)}
    (hok : collectEntries fs dir names = Except.ok kvs)
    (hnd : names.Nodup) : kvs.Nodup := by
  have hall := collectEntries_ok_forall hok
  clear hok
  induction hall with
  | nil => exact List.nodup_nil
  | @cons n kv rest kvs' hp hrest ih =>
      rw [List.nodup_cons] at hnd ⊢
      obtain ⟨hn, hnd'⟩ := hnd
      refine ⟨?_, ih hnd'⟩
      intro hkv
      -- kv appears among the tail entries: the same identifier would be
      -- parsed from two distinct names
      obtain ⟨m, hm, hpm⟩ : ∃ m ∈ rest, procEntry fs dir m = Except.ok kv := by
        clear ih hnd' hn hp
        induction hrest with
        | nil => cases hkv
        | @cons m kv' rest' kvs'' hpm hrest' ih' =>
            rcases List.mem_cons.mp hkv with rfl | hmem
            · exact ⟨m, List.mem_cons_self m rest', hpm⟩
            · obtain ⟨m', hm', hpm'⟩ := ih' hmem
              exact ⟨m', List.mem_cons_of_mem _ hm', hpm'⟩
      have h1 := (procEntry_ok_parts hp).2
      have h2 := (procEntry_ok_parts hpm).2
      have hdata : n.data = m.data := from_str_ok_inj h1 h2
      have : n = m := String.ext hdata
      exact hn (this ▸ hm)

theorem under_length_succ_eq {p q : FPath} (hu : under p q = true)
    (hl : q.length = p.length + 1) : ∃ x, q = p ++ [x] := by
  induction p generalizing q with
  | nil =>
      cases q with
      | nil => exact absurd hl (by simp)
      | cons b t =>
          cases t with
          | nil => exact ⟨b, rfl⟩
          | cons c u => exact absurd hl (by simp)
  | cons a s ih =>
      cases q with
      | nil => exact absurd hu (by simp [under])
      | cons b t =>
          simp only [under, Bool.and_eq_true, beq_iff_eq] at hu
          obtain ⟨x, hx⟩ := ih hu.2 (by simpa using hl)
          exact ⟨x, by rw [hu.1, hx]; rfl⟩

theorem childName_some {p q : FPath} {n : String}
    (h : childName p q = some n) : q = p ++ [n] := by
  unfold childName at h
  by_cases hc : (under p q && q.length == p.length + 1) = true
  · rw [if_pos hc] at h
    rw [Bool.and_eq_true, beq_iff_eq] at hc
    obtain ⟨x, hx⟩ := under_length_succ_eq hc.1 hc.2
    rw [hx] at h
    rw [List.getLast?_concat] at h
    injection h with h
    rw [hx, h]
  · rw [if_neg hc] at h
    exact absurd h (by simp)

theorem readDir_ok_names {fs : FS} {p : FPath} {names : List String}
    (h : fs.readDir p = Except.ok names) :
    names = fs.dirs.filterMap (fun e => childName p e.fst)
      ++ fs.files.filterMap (fun e => childName p e.fst) := by
  unfold FS.readDir at h
  by_cases h1 : fs.failing.contains p = true
  · rw [if_pos h1] at h; exact absurd h (by simp)
  · rw [if_neg h1] at h
    by_cases h2 : (!fs.isDir p) = true
    · rw [if_pos h2] at h; exact absurd h (by simp)
    · rw [if_neg h2] at h
      injection h with h
      rw [h]

theorem filterMap_childName_nodup {β : Type} (p : FPath)
    (l : List (FPath × β)) (hnd : (l.map Prod.fst).Nodup) :
    (l.filterMap (fun e => childName p e.fst)).Nodup := by
  have heq : l.filterMap (fun e => childName p e.fst)
      = (l.map Prod.fst).filterMap (childName p) := by
    rw [List.filterMap_map]
    rfl
  rw [heq]
  apply List.Nodup.filterMap _ hnd
  intro q q' n hn hn'
  rw [Option.mem_def] at hn hn'
  rw [childName_some hn, childName_some hn']

theorem mem_filterMap_childName {β : Type} {p : FPath} {l : List (FPath × β)}
    {n : String} (h : n ∈ l.filterMap (fun e => childName p e.fst)) :
    (p ++ [n]) ∈ l.map Prod.fst := by
  rw [List.mem_filterMap] at h
  obtain ⟨e, he, hn⟩ := h
  rw [← childName_some hn]
  exact List.mem_map_of_mem _ he

theorem readDir_names_nodup {fs : FS} {p : FPath} {names : List String}
    (hwf : fs.WF) (h : fs.readDir p = Except.ok names) : names.Nodup := by
  rw [readDir_ok_names h]
  apply List.Nodup.append
  · exact filterMap_childName_nodup p fs.dirs hwf.1
  · exact filterMap_childName_nodup p fs.files hwf.2.1
  · intro n hn1 hn2
    exact hwf.2.2 (p ++ [n]) (mem_filterMap_childName hn1)
      (mem_filterMap_childName hn2)

/-- C5: whenever `Inbox::list` succeeds, its result has exactly one handle
per entry of the inbox partition — the collected `(mtime, identifier)`
pairs, in some order — and the handles are emitted in strictly ascending
`(modification time, identifier)` order, so equal modification times are
tie-broken by identifier and the enumeration is deterministic. -/
theorem c5_inbox_list_sorted (fs : FS) (root : FPath) (names : List String)
    (kvs : List (Nat × DocId)) (out : List DocId) (hwf : fs.WF)
    (hrd : fs.readDir (statePath root BState.inboxed) = Except.ok names)
    (hcol : collectEntries fs (statePath root BState.inboxed) names
      = Except.ok kvs)
    (hout : Inbox.list fs root = Except.ok out) :
    ∃ sorted : List (Nat × DocId),
      sorted.Perm kvs
      ∧ sorted.Pairwise (fun a b => keyLt a b = true)
      ∧ out = sorted.map Prod.snd
      ∧ out.length = names.length := by
  have hnd : names.Nodup := readDir_names_nodup hwf hrd
  have hkvs_nd : kvs.Nodup := collectEntries_kvs_nodup hcol hnd
  have hout' : out = (kvs.foldl (fun m kv => btreeInsert kv m) []).map Prod.snd := by
    have hlist : Inbox.list fs root
        = (match collectEntries fs (statePath root BState.inboxed) names with
           | Except.error e => Except.error e
           | Except.ok kvs => Except.ok
              ((kvs.foldl (fun m kv => btreeInsert kv m) []).map Prod.snd)) := by
      unfold Inbox.list
      rw [hrd]
    rw [hlist, hcol] at hout
    have h2 : Except.ok ((kvs.foldl (fun m kv => btreeInsert kv m) []).map
        Prod.snd) = Except.ok out := hout
    injection h2 with h2
    rw [h2]
  obtain ⟨hsorted, hperm⟩ := foldl_btreeInsert_sorted_perm kvs [] hkvs_nd
    List.Pairwise.nil (by intro x _ hx; cases hx)
  rw [List.nil_append] at hperm
  refine ⟨kvs.foldl (fun m kv => btreeInsert kv m) [], hperm, hsorted, hout', ?_⟩
  rw [hout']
  rw [List.length_map, hperm.length_eq]
  exact (List.Forall₂.length_eq (collectEntries_ok_forall hcol)).symm

/-- C6: if any entry of the inbox partition has a name that does not parse
as an identifier, `Inbox::list` fails the whole listing with the
invalid-identifier error instead of skipping the entry (provided no entry's
stat fails with an unrelated I/O error first). -/
theorem c6_inbox_list_aborts (fs : FS) (root : FPath) (names : List String)
    (bad : String)
    (hrd : fs.readDir (statePath root BState.inboxed) = Except.ok names)
    (hmem : bad ∈ names)
    (hbad : ∃ e, DocId.from_str bad.data = Except.error e)
    (hstat : ∀ n ∈ names,
      ∃ t, fs.stat (statePath root BState.inboxed ++ [n]) = Except.ok t) :
    ∃ e, Inbox.list fs root = Except.error (ListErr.invalidId e) := by
  have hcol : ∃ e, collectEntries fs (statePath root BState.inboxed) names
      = Except.error (ListErr.invalidId e) := by
    clear hrd
    induction names with
    | nil => cases hmem
    | cons n rest ih =>
        obtain ⟨t, ht⟩ := hstat n (List.mem_cons_self n rest)
        cases hf : DocId.from_str n.data with
        | error e =>
            refine ⟨e, ?_⟩
            unfold collectEntries
            have hp : procEntry fs (statePath root BState.inboxed) n
                = Except.error (ListErr.invalidId e) := by
              unfold procEntry
              rw [ht, hf]
            rw [hp]
            cases hcr : collectEntries fs (statePath root BState.inboxed) rest
              with
            | error e' => rfl
            | ok kvs' => rfl
        | ok id =>
            have hbadrest : bad ∈ rest := by
              rcases List.mem_cons.mp hmem with rfl | hr
              · obtain ⟨e, he⟩ := hbad
                rw [hf] at he
                exact absurd he (by simp)
              · exact hr
            obtain ⟨e, he⟩ := ih hbadrest
              (fun m hm => hstat m (List.mem_cons_of_mem _ hm))
            refine ⟨e, ?_⟩
            unfold collectEntries
            have hp : procEntry fs (statePath root BState.inboxed) n
                = Except.ok (t, id) := by
              unfold procEntry
              rw [ht, hf]
            rw [hp, he]
  obtain ⟨e, he⟩ := hcol
  refine ⟨e, ?_⟩
  have hlist : Inbox.list fs root
      = (match collectEntries fs (statePath root BState.inboxed) names with
         | Except.error e => Except.error e
         | Except.ok kvs => Except.ok
            ((kvs.foldl (fun m kv => btreeInsert kv m) []).map Prod.snd)) := by
    unfold Inbox.list
    rw [hrd]
  rw [hlist, he]

/-! ## Witnesses: the claim theorems evaluated at concrete inputs -/

theorem c1_witness :
    residence fsEmpty wRoot docIdOne = []
    ∧ residence (Repository.stage fsEmpty wRoot docIdOne 1) wRoot docIdOne
        = [BState.staging]
    ∧ ∃ fs2, Bundle.commit (Repository.stage fsEmpty wRoot docIdOne 1)
        wRoot docIdOne 2 = Except.ok fs2
      ∧ residence fs2 wRoot docIdOne = [BState.inboxed]
      ∧ ∃ fs3, Bundle.archive fs2 wRoot docIdOne 3 = Except.ok fs3
        ∧ residence fs3 wRoot docIdOne = [BState.archived] :=
  c1_lifecycle fsEmpty wRoot docIdOne 1 2 3 (fun _ => rfl)

theorem c2_witness :
    wFsStage.isDir (bundlePath wRoot BState.staging docIdOne) = true
    ∧ wFsStage.present (bundlePath wRoot BState.inboxed docIdOne) = false
    ∧ ∃ fs', Bundle.commit wFsStage wRoot docIdOne 7 = Except.ok fs'
      ∧ fs'.isDir (bundlePath wRoot BState.inboxed docIdOne) = true
      ∧ fs'.isDir (bundlePath wRoot BState.staging docIdOne) = false
      ∧ (∀ r : FPath,
          wFsStage.isFile (bundlePath wRoot BState.staging docIdOne ++ r) = true →
          fs'.isFile (bundlePath wRoot BState.inboxed docIdOne ++ r) = true) :=
  ⟨by decide, by decide,
    (c2_commit_archive_contract wFsStage wRoot docIdOne 7).2.2.1
      (by decide) (by decide)⟩

theorem c4_witness :
    (∃ c ∈ (['0'] : List Char), c ∉ ALPHABET)
    ∧ ∃ e, DocId.from_str ['0'] = Except.error e :=
  ⟨⟨'0', by decide, by decide⟩,
    c4_from_str_invalid ['0'] (Or.inl ⟨'0', by decide, by decide⟩)⟩

theorem c5_witness :
    wFsInbox.WF
    ∧ wFsInbox.readDir (statePath wRoot BState.inboxed)
        = Except.ok [docIdOne.filename]
    ∧ collectEntries wFsInbox (statePath wRoot BState.inboxed)
        [docIdOne.filename] = Except.ok [(5, docIdOne)]
    ∧ Inbox.list wFsInbox wRoot = Except.ok [docIdOne]
    ∧ ∃ sorted : List (Nat × DocId),
        sorted.Perm [(5, docIdOne)]
        ∧ sorted.Pairwise (fun a b => keyLt a b = true)
        ∧ [docIdOne] = sorted.map Prod.snd
        ∧ ([docIdOne] : List DocId).length
            = ([docIdOne.filename] : List String).length :=
  ⟨by decide, rfl, rfl, by decide,
    c5_inbox_list_sorted wFsInbox wRoot [docIdOne.filename] [(5, docIdOne)]
      [docIdOne] (by decide) rfl rfl (by decide)⟩

theorem c6_witness :
    "0bad" ∈ ["0bad"]
    ∧ (∃ e, DocId.from_str "0bad".data = Except.error e)
    ∧ ∃ e, Inbox.list wFsBad wRoot = Except.error (ListErr.invalidId e) :=
  ⟨by decide, ⟨ParseErr.invalidBase58, by decide⟩,
    c6_inbox_list_aborts wFsBad wRoot ["0bad"] "0bad" rfl (by decide)
      ⟨ParseErr.invalidBase58, by decide⟩
      (by
        intro n hn
        rw [List.mem_singleton] at hn
        subst hn
        exact ⟨5, rfl⟩)⟩

theorem c7_witness :
    Bundle.read wFsStage wRoot BState.staging docIdOne Kind.plaintext
      = Except.ok none
    ∧ Bundle.read_plaintext utf8W wFsStage wRoot BState.staging docIdOne
      = Except.error (RepoErr.missingFragment Kind.plaintext)
    ∧ Bundle.read_metadata loadW wFsStage wRoot BState.staging docIdOne
      = Except.error (RepoErr.missingFragment Kind.metadata) :=
  ⟨(c7_fragment_absence utf8W loadW wFsStage wRoot BState.staging docIdOne).1
      Kind.plaintext (by decide) (by decide),
    ((c7_fragment_absence utf8W loadW wFsStage wRoot BState.staging
      docIdOne).2.1 (by decide)).mpr (by decide),
    ((c7_fragment_absence utf8W loadW wFsStage wRoot BState.staging
      docIdOne).2.2 (by decide)).mpr (by decide)⟩

theorem c8_witness :
    ∃ fs', Bundle.write wFsStage wRoot docIdOne Kind.document [1, 2, 3]
        = Except.ok fs'
      ∧ fs'.files.find?
          (fun e => e.fst == fragmentPath wRoot BState.staging docIdOne
            Kind.document)
          = some (fragmentPath wRoot BState.staging docIdOne Kind.document,
              [1, 2, 3])
      ∧ Bundle.read fs' wRoot BState.staging docIdOne Kind.document
          = Except.ok (some [1, 2, 3]) :=
  c8_write_then_read wFsStage wRoot docIdOne Kind.document [1, 2, 3]
    (by decide) (by decide)

theorem c9_witness : Inbox.get wFsFail wRoot docIdOne = none :=
  (c9_get_swallows_stat_errors wFsFail wRoot docIdOne).1.mpr
    ⟨IoErr.access, by decide⟩

theorem c10_witness :
    Kind.fromString "juicer.log" = Kind.other "juicer.log" :=
  c10_kind_string_mapping.2.2.2.2.1 "juicer.log" (by decide)
